import Mathlib

/-!
# Archive index: scanner and browser

A shallow embedding of `scan-archive.js` (the indexer) and `archive-script.js`
(the browser) and the properties their specification states about them.

JavaScript strings are sequences of UTF-16 code units; they are modelled as
lists of natural numbers, one entry per code unit. The string built-ins the
scripts call (`split`, `join`, `lastIndexOf`, `substring`, `slice`, `charAt`,
`replace`, `includes`, `path.extname`, `Array.prototype.sort`, `Set`) are
embedded with the behaviour ECMA-262 and Node give them. The three built-ins
that depend on Unicode and locale tables (`toUpperCase`, `toLowerCase`,
`localeCompare`) are not part of the scripts and are taken as a parameter, the
`Host`. Console output is diagnostic only and is not modelled.
-/

set_option maxRecDepth 100000

namespace Archive

/-! ## Strings -/

/-- A JavaScript string: its UTF-16 code units. -/
abbrev JSString := List Nat

/-- The code units of one code point: itself in the basic plane, a surrogate
pair above it. -/
def codeUnits (n : Nat) : JSString :=
  if n < 65536 then [n] else [55296 + (n - 65536) / 1024, 56320 + (n - 65536) % 1024]

/-- The JavaScript string a literal denotes. -/
def utf16 (s : String) : JSString :=
  s.data.foldr (fun c acc => codeUnits c.toNat ++ acc) []

/-- Code unit of `-`. -/
def DASH : Nat := 45
/-- Code unit of `.`. -/
def DOT : Nat := 46
/-- Code unit of `_`. -/
def UNDERSCORE : Nat := 95
/-- Code unit of the space. -/
def SPACE : Nat := 32
/-- Code unit of `/`. -/
def SLASH : Nat := 47

/-- The built-in `str.split(sep)` for a separator that matches single code units (a
one-character string, or a character class such as `/[-_]/`): the pieces
between the matches, the empty string giving one empty piece. -/
def split (sep : Nat → Bool) : JSString → List JSString
  | [] => [[]]
  | c :: cs =>
    if sep c then [] :: split sep cs
    else match split sep cs with
      | [] => [[c]]
      | w :: ws => (c :: w) :: ws

/-- The built-in `arr.join(sep)`: the strings with `sep` between them. -/
def join (sep : JSString) : List JSString → JSString
  | [] => []
  | [w] => w
  | w :: ws => w ++ sep ++ join sep ws

/-- The built-in `str.lastIndexOf(ch)` for a one-character `ch`: the index of the last
occurrence, `-1` when there is none. -/
def lastIndexOf (ch : Nat) : JSString → Int
  | [] => -1
  | c :: cs =>
    match lastIndexOf ch cs with
    | Int.negSucc _ => if c = ch then 0 else -1
    | Int.ofNat i => Int.ofNat (i + 1)

/-- The clamping `substring` applies to an index: below `0` becomes `0`, above
the length becomes the length. -/
def clampIndex (len : Nat) (i : Int) : Nat :=
  min i.toNat len

/-- The built-in `str.substring(a, b)`: both indices clamped to the string, swapped when out
of order, the units from the smaller up to the larger. -/
def substring (s : JSString) (a b : Int) : JSString :=
  let a1 := clampIndex s.length a
  let b1 := clampIndex s.length b
  (s.drop (min a1 b1)).take (max a1 b1 - min a1 b1)

/-- The built-in `str.charAt(0)`: the first code unit as a string, empty for the empty
string. -/
def charAt0 (s : JSString) : JSString := s.take 1

/-- The built-in `str.slice(1)`: everything after the first code unit. -/
def slice1 (s : JSString) : JSString := s.drop 1

/-- The built-in `arr.slice(3)`: the elements from index 3 on. -/
def slice3 {α : Type} (xs : List α) : List α := xs.drop 3

/-- The built-in `str.replace(ch, '')` for a one-character string `ch`: the first occurrence
removed. -/
def replaceFirst (ch : Nat) : JSString → JSString
  | [] => []
  | c :: cs => if c = ch then cs else c :: replaceFirst ch cs

/-! ## The host -/

/-- The built-ins whose result depends on Unicode and locale data. -/
structure Host where
  /-- `String.prototype.toUpperCase`. -/
  toUpperCase : JSString → JSString
  /-- `String.prototype.toLowerCase`. -/
  toLowerCase : JSString → JSString
  /-- `String.prototype.localeCompare`: negative, zero or positive. -/
  localeCompare : JSString → JSString → Int

/-! ## scan-archive.js -/

/-- The object `parseFilename` returns. -/
structure Parsed where
  artist : JSString
  sequence : JSString
  medium : JSString
  deriving DecidableEq, Repr

/-- The function `parseFilename(filename, expectedYear)`; `none` is `null`. The year
comparison only logs a warning. -/
def parseFilename (filename : JSString) (_expectedYear : JSString) : Option Parsed :=
  let nameWithoutExt := substring filename 0 (lastIndexOf DOT filename)
  let parts := split (fun c => c == DASH) nameWithoutExt
  if parts.length < 4 then none
  else
    some { artist := parts.getD 1 []
           sequence := parts.getD 2 []
           medium := join [DASH] (slice3 parts) }

/-- The function `formatArtistName(artistSlug)`. -/
def formatArtistName (host : Host) (artistSlug : JSString) : JSString :=
  join [SPACE]
    ((split (fun c => c == UNDERSCORE) artistSlug).map
      (fun word => host.toUpperCase (charAt0 word) ++ slice1 word))

/-- The state of the scan in Node's `path.extname` (posix). -/
structure ExtScan where
  startDot : Int
  startPart : Int
  endPos : Int
  matchedSlash : Bool
  preDotState : Int
  deriving DecidableEq, Repr

/-- The loop of `path.extname`, over the code units paired with their index,
last one first; the `break` returns the state. -/
def extnameLoop : List (Nat × Nat) → ExtScan → ExtScan
  | [], st => st
  | (i, code) :: rest, st =>
    if code = SLASH then
      if !st.matchedSlash then { st with startPart := (i : Int) + 1 }
      else extnameLoop rest st
    else
      let st1 := if st.endPos = -1 then { st with matchedSlash := false, endPos := (i : Int) + 1 }
                 else st
      let st2 :=
        if code = DOT then
          if st1.startDot = -1 then { st1 with startDot := (i : Int) }
          else if st1.preDotState ≠ 1 then { st1 with preDotState := 1 }
          else st1
        else if st1.startDot ≠ -1 then { st1 with preDotState := -1 }
        else st1
      extnameLoop rest st2

/-- Node's `path.extname(path)` (posix): the last portion of the path from its
last `.` on; empty when there is no `.`, when the only `.` starts the portion,
or when the portion is `..`. -/
def extname (path : JSString) : JSString :=
  let st := extnameLoop ((List.range path.length).zip path).reverse
    { startDot := -1, startPart := 0, endPos := -1, matchedSlash := true, preDotState := 0 }
  if st.startDot = -1 ∨ st.endPos = -1 ∨ st.preDotState = 0 ∨
      (st.preDotState = 1 ∧ st.startDot = st.endPos - 1 ∧ st.startDot = st.startPart + 1) then []
  else (path.take st.endPos.toNat).drop st.startDot.toNat

/-- The configured archive root. -/
def ARCHIVE_BASE : JSString := utf16 "./img/Archive"

/-- The configured years. -/
def YEARS : List JSString := [utf16 "2022", utf16 "2023", utf16 "2024"]

/-- The allow-list of image extensions. -/
def IMAGE_EXTENSIONS : List JSString := [utf16 ".jpg", utf16 ".jpeg", utf16 ".png", utf16 ".gif"]

/-- One entry of the index. -/
structure MediaRecord where
  id : JSString
  year : JSString
  artist : JSString
  artistDisplay : JSString
  sequence : JSString
  medium : JSString
  filename : JSString
  path : JSString
  extension : JSString
  deriving DecidableEq, Repr

/-- The object literal pushed for a parsed file. -/
def mkRecord (host : Host) (year filename ext : JSString) (parsed : Parsed) : MediaRecord :=
  { id := year ++ [DASH] ++ parsed.artist ++ [DASH] ++ parsed.sequence
    year := year
    artist := parsed.artist
    artistDisplay := formatArtistName host parsed.artist
    sequence := parsed.sequence
    medium := parsed.medium
    filename := filename
    path := utf16 "img/Archive/" ++ year ++ [SLASH] ++ filename
    extension := replaceFirst DOT ext }

/-- The body of `files.forEach`: what one directory entry adds to
`mediaItems`. -/
def scanFile (host : Host) (year : JSString) (mediaItems : List MediaRecord)
    (filename : JSString) : List MediaRecord :=
  let ext := host.toLowerCase (extname filename)
  if !(IMAGE_EXTENSIONS.contains ext) then mediaItems
  else
    match parseFilename filename year with
    | some parsed => mediaItems ++ [mkRecord host year filename ext parsed]
    | none => mediaItems

/-- The comparator handed to `mediaItems.sort`. -/
def compareItems (host : Host) (a b : MediaRecord) : Int :=
  if a.artist ≠ b.artist then host.localeCompare a.artist b.artist
  else host.localeCompare a.sequence b.sequence

/-- The built-in `arr.sort(cmp)`: a stable sort, `a` staying before `b` when
`cmp(a, b) <= 0`. For a consistent comparator every stable sort gives this
list; ECMA-262 leaves the order open otherwise. -/
def arraySort {α : Type} (cmp : α → α → Int) (xs : List α) : List α :=
  xs.insertionSort (fun a b => cmp a b ≤ 0)

/-- What `scanArchive` stores for a year whose directory lists `files`. -/
def scanYear (host : Host) (year : JSString) (files : List JSString) : List MediaRecord :=
  arraySort (compareItems host) (files.foldl (scanFile host year) [])

/-- The path `path.join(ARCHIVE_BASE, year)`, up to normalisation of the leading `./`. -/
def yearPath (year : JSString) : JSString := ARCHIVE_BASE ++ [SLASH] ++ year

/-- The file system as the scan sees it: a directory path is absent (`none`)
or lists its entries. -/
abbrev FileSystem := JSString → Option (List JSString)

/-- A JavaScript object with string keys, in key order. -/
abbrev ArchiveData := List (JSString × List MediaRecord)

/-- The assignment `obj[key] = value`. -/
def objSet (obj : ArchiveData) (key : JSString) (value : List MediaRecord) : ArchiveData :=
  if obj.any (fun kv => kv.1 == key) then
    obj.map (fun kv => if kv.1 == key then (key, value) else kv)
  else obj ++ [(key, value)]

/-- The lookup `obj[key]`; `none` is `undefined`. -/
def objGet (obj : ArchiveData) (key : JSString) : Option (List MediaRecord) :=
  (obj.find? (fun kv => kv.1 == key)).map Prod.snd

/-- The built-in `Object.keys(obj)`. -/
def objKeys (obj : ArchiveData) : List JSString := obj.map Prod.fst

/-- The body of `YEARS.forEach` in `scanArchive`. -/
def scanArchiveStep (host : Host) (fs : FileSystem) (archiveData : ArchiveData)
    (year : JSString) : ArchiveData :=
  match fs (yearPath year) with
  | none => objSet archiveData year []
  | some files => objSet archiveData year (scanYear host year files)

/-- The function `scanArchive()`. -/
def scanArchive (host : Host) (fs : FileSystem) : ArchiveData :=
  YEARS.foldl (scanArchiveStep host fs) []

/-! ## archive-script.js -/

/-- The state `currentFilters`. -/
structure FilterState where
  year : JSString
  medium : JSString
  artist : JSString
  deriving DecidableEq, Repr

/-- The wildcard value of a filter. -/
def ALL : JSString := utf16 "all"

/-- The flattening in `loadArchiveData`. -/
def flatten (archiveData : ArchiveData) : List MediaRecord :=
  (objKeys archiveData).foldl
    (fun allMedia year => allMedia ++ (objGet archiveData year).getD []) []

/-- The callback of `allMedia.filter` in `renderMedia`. -/
def matchesFilters (currentFilters : FilterState) (item : MediaRecord) : Bool :=
  let matchesYear := currentFilters.year == ALL || item.year == currentFilters.year
  let matchesMedium := currentFilters.medium == ALL || item.medium == currentFilters.medium
  let matchesArtist := currentFilters.artist == ALL || item.artistDisplay == currentFilters.artist
  matchesYear && matchesMedium && matchesArtist

/-- The list `filtered` of `renderMedia`. -/
def renderMediaFiltered (currentFilters : FilterState) (allMedia : List MediaRecord) :
    List MediaRecord :=
  allMedia.filter (matchesFilters currentFilters)

/-- Insertion into a `Set` in iteration order: `acc` with the values of the
list not yet in it appended. -/
def setAddAll (acc : List JSString) : List JSString → List JSString
  | [] => acc
  | x :: xs => if acc.contains x then setAddAll acc xs else setAddAll (acc ++ [x]) xs

/-- The array `[...new Set(xs)]`: the distinct values in order of first occurrence. -/
def spreadSet (xs : List JSString) : List JSString := setAddAll [] xs

/-- The built-in `arr.sort()` on strings: the default comparison is by code units,
`cmp(a, b) <= 0` exactly when `b < a` fails. -/
def arraySortDefault (xs : List JSString) : List JSString :=
  xs.insertionSort (fun a b => ¬ b < a)

/-- The function `capitalizeWords(str)`. -/
def capitalizeWords (host : Host) (str : JSString) : JSString :=
  join [SPACE]
    ((split (fun c => c == DASH || c == UNDERSCORE) str).map
      (fun word => host.toUpperCase (charAt0 word) ++ slice1 word))

/-- The part of the document the filters live in: the `data-year` of the
`.year-filter` buttons of the page, the `data-medium` of the buttons in
`#medium-buttons`, the values of the options of `#artist-select`. -/
structure Document where
  yearFilters : List JSString
  mediumButtons : List JSString
  artistOptions : List JSString
  deriving DecidableEq, Repr

/-- The array `mediaTypes` of `populateFilters`. -/
def mediaTypes (allMedia : List MediaRecord) : List JSString :=
  arraySortDefault (spreadSet (allMedia.map (fun item => item.medium)))

/-- The array `artists` of `populateFilters`. -/
def artists (allMedia : List MediaRecord) : List JSString :=
  arraySortDefault (spreadSet (allMedia.map (fun item => item.artistDisplay)))

/-- The function `populateFilters()`: one button appended per medium, one option per
artist; the year buttons are those of the page. -/
def populateFilters (allMedia : List MediaRecord) (doc : Document) : Document :=
  { doc with
    mediumButtons := doc.mediumButtons ++ mediaTypes allMedia
    artistOptions := doc.artistOptions ++ artists allMedia }

/-! ## Instances of the host used in examples -/

/-- Upper-casing of the ASCII letters, every other code unit left as it is. -/
def asciiUpper (s : JSString) : JSString :=
  s.map (fun c => if 97 ≤ c ∧ c ≤ 122 then c - 32 else c)

/-- Lower-casing of the ASCII letters, every other code unit left as it is. -/
def asciiLower (s : JSString) : JSString :=
  s.map (fun c => if 65 ≤ c ∧ c ≤ 90 then c + 32 else c)

/-- A three-way comparison of two strings through a sort key. -/
def compareByKey (key : JSString → JSString) (a b : JSString) : Int :=
  if key a < key b then -1 else if key a = key b then 0 else 1

/-- A host with ASCII case mapping and code-unit collation. -/
def asciiHost : Host :=
  { toUpperCase := asciiUpper
    toLowerCase := asciiLower
    localeCompare := compareByKey id }

/-- The sort key of an alphabetical collation on ASCII letters: first the
letters with case folded away, then, after a terminator below every letter, the
case of each letter, lower case before upper case. Two strings compare by their
letters first and by case only when the letters tie, as the Unicode collation
algorithm orders strings of ASCII letters. -/
def alphabeticKey (s : JSString) : JSString :=
  s.map (fun c => (if 65 ≤ c ∧ c ≤ 90 then c + 32 else c) + 1)
    ++ 0 :: s.map (fun c => if 65 ≤ c ∧ c ≤ 90 then 1 else 0)

/-- A host with ASCII case mapping and alphabetical collation. -/
def alphabeticHost : Host :=
  { toUpperCase := asciiUpper
    toLowerCase := asciiLower
    localeCompare := compareByKey alphabeticKey }

/-- The sort key of a collation that treats `e` followed by the combining acute
accent (U+0065 U+0301) as the letter U+00E9, its canonical equivalent. -/
def composeAcute : JSString → JSString
  | [] => []
  | [c] => [c]
  | c :: d :: rest =>
    if c = 101 ∧ d = 769 then 233 :: composeAcute rest else c :: composeAcute (d :: rest)

/-- A host with ASCII case mapping and a collation under which canonically
equivalent strings tie. -/
def canonicalHost : Host :=
  { toUpperCase := asciiUpper
    toLowerCase := asciiLower
    localeCompare := compareByKey composeAcute }

/-- A record of the index, for examples. -/
def sampleRecord : MediaRecord :=
  { id := utf16 "2022-alpha-01"
    year := utf16 "2022"
    artist := utf16 "alpha"
    artistDisplay := utf16 "Alpha"
    sequence := utf16 "01"
    medium := utf16 "bts"
    filename := utf16 "2022-alpha-01-bts.jpg"
    path := utf16 "img/Archive/2022/2022-alpha-01-bts.jpg"
    extension := utf16 "jpg" }

/-- A page with one year button per configured year and the wildcard in each
control, for examples. -/
def samplePage : Document :=
  { yearFilters := [utf16 "all", utf16 "2022", utf16 "2023", utf16 "2024"]
    mediumButtons := [utf16 "all"]
    artistOptions := [utf16 "all"] }

/-! ## The specification's wording -/

/-- The filtering predicate as the specification words it: each field is the
wildcard or equals the record's field. -/
def PassesFilter (state : FilterState) (r : MediaRecord) : Prop :=
  (state.year = ALL ∨ r.year = state.year) ∧
  (state.medium = ALL ∨ r.medium = state.medium) ∧
  (state.artist = ALL ∨ r.artistDisplay = state.artist)

instance (state : FilterState) (r : MediaRecord) : Decidable (PassesFilter state r) :=
  inferInstanceAs (Decidable (_ ∧ _))

/-- What one directory entry contributes to the list of its year: the record
`scanFile` pushes, or nothing. -/
def fileRecord (host : Host) (year filename : JSString) : Option MediaRecord :=
  if IMAGE_EXTENSIONS.contains (host.toLowerCase (extname filename)) then
    (parseFilename filename year).map
      (mkRecord host year filename (host.toLowerCase (extname filename)))
  else none

/-- The list `scanArchive` stores for a year: empty for an absent directory,
the scan of the listing otherwise. -/
def yearEntry (host : Host) (fs : FileSystem) (year : JSString) : List MediaRecord :=
  match fs (yearPath year) with
  | none => []
  | some files => scanYear host year files

/-- The text before the last `.` of a file name, as `parseFilename` takes it. -/
def nameWithoutExt (filename : JSString) : JSString :=
  substring filename 0 (lastIndexOf DOT filename)

/-- A file name that enters the index, as the specification words it: its
extension, lower-cased, is on the allow-list, and its stem has at least 4
dash-separated tokens. -/
def Indexed (host : Host) (filename : JSString) : Prop :=
  host.toLowerCase (extname filename) ∈ IMAGE_EXTENSIONS ∧
    4 ≤ (split (fun c => c == DASH) (nameWithoutExt filename)).length

instance (host : Host) (filename : JSString) : Decidable (Indexed host filename) :=
  inferInstanceAs (Decidable (_ ∧ _))

/-- A collation: the comparison of a total preorder on strings. Opposite
argument orders give opposite signs, and not-after is transitive. Distinct
strings may tie. -/
def Collation (lc : JSString → JSString → Int) : Prop :=
  (∀ a b, lc a b < 0 ↔ 0 < lc b a) ∧
  (∀ a b c, lc a b ≤ 0 → lc b c ≤ 0 → lc a c ≤ 0)

/-- No two records of the list have distinct artists that tie under the
collation `lc`. -/
def ArtistsDistinguished (lc : JSString → JSString → Int) (records : List MediaRecord) :
    Prop :=
  ∀ p ∈ records, ∀ q ∈ records, lc p.artist q.artist = 0 → p.artist = q.artist

instance (lc : JSString → JSString → Int) (records : List MediaRecord) :
    Decidable (ArtistsDistinguished lc records) :=
  inferInstanceAs (Decidable (∀ p ∈ records, ∀ q ∈ records, _))

/-- The order of the index under a collation `lc`: `p` may stand before `q`
when its artist collates first, or the artists are equal and its sequence does
not collate after. -/
def InOrder (lc : JSString → JSString → Int) (p q : MediaRecord) : Prop :=
  lc p.artist q.artist < 0 ∨ (p.artist = q.artist ∧ lc p.sequence q.sequence ≤ 0)

/-- The order of the index under plain lexicographic comparison of code
units. -/
def InPlainOrder (p q : MediaRecord) : Prop :=
  p.artist < q.artist ∨ (p.artist = q.artist ∧ p.sequence ≤ q.sequence)

instance (p q : MediaRecord) : Decidable (InPlainOrder p q) :=
  inferInstanceAs (Decidable (_ ∨ _))

/-- The file system with the directory at `path` absent. -/
def removeDir (fs : FileSystem) (path : JSString) : FileSystem :=
  fun q => if q = path then none else fs q

/-- A word with its first code unit upper-cased and the rest untouched, the
empty word unchanged. -/
def capitalizeFirst (host : Host) : JSString → JSString
  | [] => []
  | c :: rest => host.toUpperCase [c] ++ rest

/-- A host that upper-cases the ASCII letters `a` to `z` to `A` to `Z`. -/
def UppercasesAscii (host : Host) : Prop :=
  ∀ c, 97 ≤ c → c ≤ 122 → host.toUpperCase [c] = [c - 32]

/-! ## Lemmas on the string built-ins -/

theorem split_ne_nil (sep : Nat → Bool) (s : JSString) : split sep s ≠ [] := by
  cases s with
  | nil => simp [split]
  | cons c cs =>
    simp only [split]
    split
    · simp
    · split <;> simp

theorem split_cons_of_not_sep (sep : Nat → Bool) (c : Nat) (cs : JSString) (h : sep c = false) :
    ∃ w ws, split sep cs = w :: ws ∧ split sep (c :: cs) = (c :: w) :: ws := by
  cases hs : split sep cs with
  | nil => exact absurd hs (split_ne_nil sep cs)
  | cons w ws => exact ⟨w, ws, rfl, by simp [split, h, hs]⟩

theorem split_append_sep (sep : Nat → Bool) (a : JSString) (d : Nat) (rest : JSString)
    (ha : ∀ c ∈ a, sep c = false) (hd : sep d = true) :
    split sep (a ++ d :: rest) = a :: split sep rest := by
  induction a with
  | nil => simp [split, hd]
  | cons c cs ih =>
    have hc : sep c = false := ha c (by simp)
    have ih1 := ih (fun x hx => ha x (by simp [hx]))
    simp [split, hc, ih1]

theorem split_of_no_sep (sep : Nat → Bool) (a : JSString) (ha : ∀ c ∈ a, sep c = false) :
    split sep a = [a] := by
  induction a with
  | nil => simp [split]
  | cons c cs ih =>
    have hc : sep c = false := ha c (by simp)
    have ih1 := ih (fun x hx => ha x (by simp [hx]))
    simp [split, hc, ih1]

theorem join_split (d : Nat) (s : JSString) : join [d] (split (fun c => c == d) s) = s := by
  induction s with
  | nil => simp [split, join]
  | cons c cs ih =>
    by_cases h : c = d
    · subst h
      cases hs : split (fun x => x == c) cs with
      | nil => exact absurd hs (split_ne_nil _ cs)
      | cons w ws =>
        rw [hs] at ih
        simp [split, hs, join, ih]
    · obtain ⟨w, ws, h1, h2⟩ := split_cons_of_not_sep (fun x => x == d) c cs (by simpa using h)
      rw [h2]
      rw [h1] at ih
      cases ws with
      | nil => simp [join] at ih ⊢; exact ih
      | cons v vs => simp [join] at ih ⊢; exact ih

theorem lastIndexOf_of_not_mem (ch : Nat) (s : JSString) (h : ch ∉ s) :
    lastIndexOf ch s = -1 := by
  induction s with
  | nil => rfl
  | cons c cs ih =>
    have h1 : ch ∉ cs := fun hm => h (by simp [hm])
    have h2 : c ≠ ch := fun he => h (by simp [he])
    have e : lastIndexOf ch cs = Int.negSucc 0 := ih h1
    rw [lastIndexOf, e]
    dsimp only
    rw [if_neg h2]

theorem lastIndexOf_append (ch : Nat) (pre post : JSString) (h : ch ∉ post) :
    lastIndexOf ch (pre ++ ch :: post) = (pre.length : Int) := by
  induction pre with
  | nil =>
    have e : lastIndexOf ch post = Int.negSucc 0 := lastIndexOf_of_not_mem ch post h
    rw [List.nil_append, lastIndexOf, e]
    dsimp only
    rw [if_pos rfl]
    rfl
  | cons c cs ih =>
    have e : lastIndexOf ch (cs ++ ch :: post) = Int.ofNat cs.length := ih
    rw [List.cons_append, lastIndexOf, e]
    dsimp only
    simp

theorem substring_zero_neg_one (s : JSString) : substring s 0 (-1) = [] := by
  simp [substring, clampIndex]

theorem substring_zero_length (pre post : JSString) :
    substring (pre ++ post) 0 (pre.length : Int) = pre := by
  simp [substring, clampIndex]

/-- The name with its extension removed, as `parseFilename` computes it, for a
name with a `.`: the text before the last one. -/
theorem nameWithoutExt_of_dot (stem ext : JSString) (h : DOT ∉ ext) :
    substring (stem ++ DOT :: ext) 0 (lastIndexOf DOT (stem ++ DOT :: ext)) = stem := by
  rw [lastIndexOf_append DOT stem ext h]
  exact substring_zero_length stem (DOT :: ext)

/-- The name with its extension removed, as `parseFilename` computes it, for a
name without a `.`: `lastIndexOf` is `-1` and `substring(0, -1)` is empty. -/
theorem nameWithoutExt_of_no_dot (filename : JSString) (h : DOT ∉ filename) :
    substring filename 0 (lastIndexOf DOT filename) = [] := by
  rw [lastIndexOf_of_not_mem DOT filename h]
  exact substring_zero_neg_one filename

/-! ## Filtering (archive-script.js, `renderMedia`) -/

theorem matchesFilters_iff (state : FilterState) (r : MediaRecord) :
    matchesFilters state r = true ↔ PassesFilter state r := by
  simp [matchesFilters, PassesFilter, and_assoc]

/-- C1: the list `renderMedia` filters out of `allMedia` is the subsequence, in
the order of `allMedia`, of the records that pass the three
equality-or-wildcard tests; a record is in it iff it is loaded and passes; with
the three filters on the wildcard it is `allMedia`. -/
theorem renderMedia_filter_correct (state : FilterState) (allMedia : List MediaRecord) :
    renderMediaFiltered state allMedia
        = allMedia.filter (fun r => decide (PassesFilter state r)) ∧
      (renderMediaFiltered state allMedia).Sublist allMedia ∧
      (∀ r, r ∈ renderMediaFiltered state allMedia ↔ r ∈ allMedia ∧ PassesFilter state r) ∧
      renderMediaFiltered { year := ALL, medium := ALL, artist := ALL } allMedia = allMedia := by
  refine ⟨?_, List.filter_sublist _, ?_, ?_⟩
  · unfold renderMediaFiltered
    apply List.filter_congr
    intro r _
    by_cases h : PassesFilter state r
    · simp [h, (matchesFilters_iff state r).mpr h]
    · have h1 : matchesFilters state r = false := by
        cases hm : matchesFilters state r with
        | false => rfl
        | true => exact absurd ((matchesFilters_iff state r).mp hm) h
      simp [h, h1]
  · intro r
    unfold renderMediaFiltered
    rw [List.mem_filter, matchesFilters_iff]
  · unfold renderMediaFiltered
    rw [List.filter_eq_self]
    intro r _
    simp [matchesFilters]

/-! ## Parsing a file name (scan-archive.js, `parseFilename`) -/

theorem parseFilename_eq_none_iff (filename expectedYear : JSString) :
    parseFilename filename expectedYear = none ↔
      (split (fun c => c == DASH)
        (substring filename 0 (lastIndexOf DOT filename))).length < 4 := by
  unfold parseFilename
  simp only []
  split <;> simp_all

theorem parseFilename_of_four (filename expectedYear : JSString)
    (h : 4 ≤ (split (fun c => c == DASH)
        (substring filename 0 (lastIndexOf DOT filename))).length) :
    ∃ r, parseFilename filename expectedYear = some r ∧
      (split (fun c => c == DASH)
        (substring filename 0 (lastIndexOf DOT filename)))[1]? = some r.artist ∧
      (split (fun c => c == DASH)
        (substring filename 0 (lastIndexOf DOT filename)))[2]? = some r.sequence := by
  unfold parseFilename
  simp only []
  rw [if_neg (by omega)]
  refine ⟨_, rfl, ?_, ?_⟩
  · simp only [List.getD_eq_getElem?_getD]
    rw [List.getElem?_eq_getElem (by omega)]
    simp
  · simp only [List.getD_eq_getElem?_getD]
    rw [List.getElem?_eq_getElem (by omega)]
    simp

/-- C2: `parseFilename` returns `null` exactly when the text before the last
`.` of the file name splits on `-` into fewer than 4 tokens, and otherwise
returns a record whose artist is token 1 and whose sequence is token 2. A name
without a `.` has nothing before a last `.`: its stem is empty, one token, and
the result is `null`. -/
theorem parseFilename_null_iff_fewer_than_four (filename expectedYear : JSString) :
    (DOT ∉ filename → parseFilename filename expectedYear = none) ∧
    (∀ stem ext : JSString, filename = stem ++ DOT :: ext → DOT ∉ ext →
      (parseFilename filename expectedYear = none ↔
        (split (fun c => c == DASH) stem).length < 4) ∧
      (4 ≤ (split (fun c => c == DASH) stem).length →
        ∃ r, parseFilename filename expectedYear = some r ∧
          (split (fun c => c == DASH) stem)[1]? = some r.artist ∧
          (split (fun c => c == DASH) stem)[2]? = some r.sequence)) := by
  constructor
  · intro h
    rw [parseFilename_eq_none_iff, nameWithoutExt_of_no_dot filename h]
    decide
  · intro stem ext hf hext
    have hs := nameWithoutExt_of_dot stem ext hext
    rw [← hf] at hs
    constructor
    · rw [parseFilename_eq_none_iff, hs]
    · intro h4
      have := parseFilename_of_four filename expectedYear (by rw [hs]; exact h4)
      rw [hs] at this
      exact this

/-- C2, at `2022-alban_ovanessian-01-bts.jpeg`, a name with a `.`, and at
`2022-a-01-bts`, a name without one. -/
theorem parseFilename_null_iff_fewer_than_four_witness :
    parseFilename (utf16 "2022-a-01-bts") (utf16 "2022") = none ∧
    ((parseFilename (utf16 "2022-alban_ovanessian-01-bts.jpeg") (utf16 "2022") = none ↔
        (split (fun c => c == DASH) (utf16 "2022-alban_ovanessian-01-bts")).length < 4) ∧
      (4 ≤ (split (fun c => c == DASH) (utf16 "2022-alban_ovanessian-01-bts")).length →
        ∃ r, parseFilename (utf16 "2022-alban_ovanessian-01-bts.jpeg") (utf16 "2022") = some r ∧
          (split (fun c => c == DASH) (utf16 "2022-alban_ovanessian-01-bts"))[1]?
            = some r.artist ∧
          (split (fun c => c == DASH) (utf16 "2022-alban_ovanessian-01-bts"))[2]?
            = some r.sequence)) :=
  ⟨(parseFilename_null_iff_fewer_than_four (utf16 "2022-a-01-bts") (utf16 "2022")).1
      (by decide),
    (parseFilename_null_iff_fewer_than_four (utf16 "2022-alban_ovanessian-01-bts.jpeg")
      (utf16 "2022")).2 (utf16 "2022-alban_ovanessian-01-bts") (utf16 "jpeg")
      (by decide) (by decide)⟩

/-- C3: medium round trip. For `y`, `a`, `s` without `-`, any `m` and an
extension `e` without `.`, `parseFilename` on `y-a-s-m.e` returns the record
with artist `a`, sequence `s` and medium `m`. -/
theorem parseFilename_medium_roundtrip (y a s m e expectedYear : JSString)
    (hy : DASH ∉ y) (ha : DASH ∉ a) (hs : DASH ∉ s) (he : DOT ∉ e) :
    parseFilename (y ++ [DASH] ++ a ++ [DASH] ++ s ++ [DASH] ++ m ++ [DOT] ++ e) expectedYear
      = some { artist := a, sequence := s, medium := m } := by
  have hsep : ∀ w : JSString, DASH ∉ w → ∀ c ∈ w, (fun c => c == DASH) c = false := by
    intro w hw c hc
    have : c ≠ DASH := fun hcd => hw (hcd ▸ hc)
    simpa using this
  have hname : y ++ [DASH] ++ a ++ [DASH] ++ s ++ [DASH] ++ m ++ [DOT] ++ e
      = (y ++ DASH :: (a ++ DASH :: (s ++ DASH :: m))) ++ DOT :: e := by
    simp [List.append_assoc]
  have hparts : split (fun c => c == DASH) (y ++ DASH :: (a ++ DASH :: (s ++ DASH :: m)))
      = y :: a :: s :: split (fun c => c == DASH) m := by
    rw [split_append_sep _ y DASH _ (hsep y hy) (by simp),
      split_append_sep _ a DASH _ (hsep a ha) (by simp),
      split_append_sep _ s DASH _ (hsep s hs) (by simp)]
  unfold parseFilename
  simp only []
  rw [hname, nameWithoutExt_of_dot _ e he, hparts]
  have hlen : 1 ≤ (split (fun c => c == DASH) m).length :=
    List.length_pos.mpr (split_ne_nil _ m)
  simp [slice3, join_split, hlen]

/-- C3, at `2022-alban_ovanessian-01-behind-the-scenes.jpeg`. -/
theorem parseFilename_medium_roundtrip_witness :
    parseFilename (utf16 "2022" ++ [DASH] ++ utf16 "alban_ovanessian" ++ [DASH] ++ utf16 "01"
        ++ [DASH] ++ utf16 "behind-the-scenes" ++ [DOT] ++ utf16 "jpeg") (utf16 "2021")
      = some { artist := utf16 "alban_ovanessian", sequence := utf16 "01",
               medium := utf16 "behind-the-scenes" } :=
  parseFilename_medium_roundtrip (utf16 "2022") (utf16 "alban_ovanessian") (utf16 "01")
    (utf16 "behind-the-scenes") (utf16 "jpeg") (utf16 "2021")
    (by decide) (by decide) (by decide) (by decide)

/-! ## The extension of a file name (`path.extname`) -/

theorem extnameLoop_no_dot (l rest : List (Nat × Nat)) (st : ExtScan)
    (hl : ∀ p ∈ l, p.2 ≠ SLASH ∧ p.2 ≠ DOT) (hs : st.startDot = -1) :
    extnameLoop (l ++ rest) st
      = extnameLoop rest
          (match l.head? with
            | none => st
            | some p =>
              if st.endPos = -1 then { st with matchedSlash := false, endPos := (p.1 : Int) + 1 }
              else st) := by
  induction l generalizing st with
  | nil => rfl
  | cons p l1 ih =>
    obtain ⟨i, c⟩ := p
    obtain ⟨sd, sp, ep, ms, pd⟩ := st
    have hsd : sd = -1 := hs
    subst hsd
    have hc := hl (i, c) (by simp)
    have hl1 : ∀ q ∈ l1, q.2 ≠ SLASH ∧ q.2 ≠ DOT := fun q hq => hl q (List.mem_cons_of_mem _ hq)
    simp only [List.cons_append, List.head?_cons]
    rw [extnameLoop, if_neg hc.1]
    simp only [if_neg hc.2]
    by_cases he : ep = -1
    · subst he
      simp only [if_true, ne_eq, not_true_eq_false, if_false]
      rw [ih _ hl1 rfl]
      cases l1 with
      | nil => rfl
      | cons q l2 =>
        simp only [List.head?_cons]
        rw [if_neg (by omega)]
    · simp only [he, if_false, ne_eq, not_true_eq_false]
      rw [ih _ hl1 rfl]
      cases l1 with
      | nil => rfl
      | cons q l2 =>
        simp only [List.head?_cons]
        rw [if_neg he]

theorem extnameLoop_after_dot (l : List (Nat × Nat)) (st : ExtScan)
    (hl : ∀ p ∈ l, p.2 ≠ SLASH) (hs : st.startDot ≠ -1) (he : st.endPos ≠ -1) :
    extnameLoop l st
      = { st with preDotState :=
            match l.getLast? with
            | none => st.preDotState
            | some p => if p.2 = DOT then 1 else -1 } := by
  induction l generalizing st with
  | nil => rfl
  | cons p l1 ih =>
    obtain ⟨i, c⟩ := p
    obtain ⟨sd, sp, ep, ms, pd⟩ := st
    have hsd : sd ≠ -1 := hs
    have hep : ep ≠ -1 := he
    have hc := hl (i, c) (by simp)
    have hl1 : ∀ q ∈ l1, q.2 ≠ SLASH := fun q hq => hl q (List.mem_cons_of_mem _ hq)
    rw [extnameLoop, if_neg hc]
    simp only [if_neg hep, if_neg hsd, ne_eq, hsd, not_false_eq_true, if_true]
    by_cases hd : c = DOT
    · simp only [hd, if_true]
      by_cases hp : pd = 1
      · subst hp
        simp only [not_true_eq_false, if_false]
        rw [ih _ hl1 hsd hep]
        cases l1 with
        | nil => simp
        | cons q l2 =>
          rw [List.getLast?_cons_cons,
            List.getLast?_eq_getLast (q :: l2) (List.cons_ne_nil _ _)]
      · simp only [hp, not_false_eq_true, if_true]
        rw [ih _ hl1 hsd hep]
        cases l1 with
        | nil => simp
        | cons q l2 =>
          rw [List.getLast?_cons_cons,
            List.getLast?_eq_getLast (q :: l2) (List.cons_ne_nil _ _)]
          simp
    · simp only [hd, if_false]
      rw [ih _ hl1 hsd hep]
      cases l1 with
      | nil => simp [hd]
      | cons q l2 =>
        rw [List.getLast?_cons_cons,
          List.getLast?_eq_getLast (q :: l2) (List.cons_ne_nil _ _)]

theorem zip_range_eq_enumFrom (path : JSString) :
    (List.range path.length).zip path = List.enumFrom 0 path := by
  rw [← List.enum_eq_zip_range]
  rfl

/-- A name without `.` and without `/` has no extension. -/
theorem extname_of_no_dot (path : JSString) (hd : DOT ∉ path) (hs : SLASH ∉ path) :
    extname path = [] := by
  have hl : ∀ p ∈ ((List.range path.length).zip path).reverse, p.2 ≠ SLASH ∧ p.2 ≠ DOT := by
    intro p hp
    rw [List.mem_reverse] at hp
    have hmem : p.2 ∈ path := (List.of_mem_zip (a := p.1) (b := p.2) hp).2
    exact ⟨fun h => hs (h ▸ hmem), fun h => hd (h ▸ hmem)⟩
  have h := extnameLoop_no_dot _ []
    { startDot := -1, startPart := 0, endPos := -1, matchedSlash := true, preDotState := 0 }
    hl rfl
  rw [List.append_nil] at h
  unfold extname
  simp only []
  rw [h, extnameLoop]
  cases (((List.range path.length).zip path).reverse).head? <;> simp

/-- The extension of a name without `/`, by its last `.`: the text from that
`.` on, unless nothing stands before it or the name is `..`. -/
theorem extname_of_dot (stem e : JSString) (hs : SLASH ∉ stem) (hse : SLASH ∉ e)
    (he : DOT ∉ e) :
    extname (stem ++ DOT :: e)
      = if stem = [] ∨ (stem = [DOT] ∧ e = []) then [] else DOT :: e := by
  have hlist : ((List.range (stem ++ DOT :: e).length).zip (stem ++ DOT :: e)).reverse
      = (List.enumFrom (stem.length + 1) e).reverse
          ++ ((stem.length, DOT) :: (List.enumFrom 0 stem).reverse) := by
    rw [zip_range_eq_enumFrom, List.enumFrom_append, List.enumFrom_cons, List.reverse_append,
      List.reverse_cons, List.append_assoc, Nat.zero_add]
    rfl
  have hl1 : ∀ p ∈ (List.enumFrom (stem.length + 1) e).reverse, p.2 ≠ SLASH ∧ p.2 ≠ DOT := by
    intro p hp
    rw [List.mem_reverse] at hp
    have hmem : p.2 ∈ e := List.snd_mem_of_mem_enumFrom hp
    exact ⟨fun h => hse (h ▸ hmem), fun h => he (h ▸ hmem)⟩
  have hl2 : ∀ p ∈ (List.enumFrom 0 stem).reverse, p.2 ≠ SLASH := by
    intro p hp
    rw [List.mem_reverse] at hp
    have hmem : p.2 ∈ stem := List.snd_mem_of_mem_enumFrom hp
    exact fun h => hs (h ▸ hmem)
  have hphase1 := extnameLoop_no_dot (List.enumFrom (stem.length + 1) e).reverse
    ((stem.length, DOT) :: (List.enumFrom 0 stem).reverse)
    { startDot := -1, startPart := 0, endPos := -1, matchedSlash := true, preDotState := 0 }
    hl1 rfl
  have hstate : extnameLoop
      ((List.enumFrom (stem.length + 1) e).reverse
        ++ ((stem.length, DOT) :: (List.enumFrom 0 stem).reverse))
      { startDot := -1, startPart := 0, endPos := -1, matchedSlash := true, preDotState := 0 }
      = { startDot := (stem.length : Int), startPart := 0,
          endPos := ((stem.length + 1 + e.length : Nat) : Int), matchedSlash := false,
          preDotState :=
            match stem.head? with
            | none => 0
            | some c => if c = DOT then 1 else -1 } := by
    rw [hphase1, List.head?_reverse, List.getLast?_enumFrom]
    have hdot : DOT ≠ SLASH := by decide
    cases hlast : e.getLast? with
    | none =>
      have hnil : e = [] := List.getLast?_eq_none_iff.mp hlast
      subst hnil
      simp only [Option.map_none']
      rw [extnameLoop, if_neg hdot]
      simp only [if_true]
      rw [extnameLoop_after_dot _ _ hl2 (by simp) (by simp; omega),
        List.getLast?_reverse, List.head?_enumFrom]
      cases stem with
      | nil => simp
      | cons c rest => simp
    | some x =>
      have hne : e ≠ [] := fun h => by simp [h] at hlast
      have hlen : 0 < e.length := List.length_pos.mpr hne
      simp only [Option.map_some', if_true]
      rw [extnameLoop, if_neg hdot]
      have hep : ¬ (((stem.length + 1 + e.length - 1 : Nat) : Int) + 1 = -1) := by omega
      simp only [if_neg hep, if_true]
      rw [extnameLoop_after_dot _ _ hl2 (by simp) (by simp; omega),
        List.getLast?_reverse, List.head?_enumFrom]
      have hcast : ((stem.length + 1 + e.length - 1 : Nat) : Int) + 1
          = ((stem.length + 1 + e.length : Nat) : Int) := by omega
      cases stem with
      | nil => simp only [hcast]; simp
      | cons c rest => simp only [hcast]; simp
  unfold extname
  simp only []
  rw [hlist, hstate]
  have htake : List.drop stem.length (List.take (stem.length + 1 + e.length) (stem ++ DOT :: e))
      = DOT :: e := by
    have hlen : (stem ++ DOT :: e).length = stem.length + 1 + e.length := by
      simp; omega
    rw [← hlen, List.take_length, List.drop_left]
  cases stem with
  | nil => simp
  | cons c rest =>
    by_cases hc : c = DOT
    · subst hc
      by_cases hdd : rest = [] ∧ e = []
      · obtain ⟨h1, h2⟩ := hdd
        subst h1; subst h2
        decide
      · have hcond : ¬ ((DOT :: rest) = [] ∨ ((DOT :: rest) = [DOT] ∧ e = [])) := by
          simpa using hdd
        rw [if_neg hcond]
        have hlen : ¬ (rest.length = 0 ∧ e.length = 0) := by
          simpa [List.length_eq_zero] using hdd
        simp only [List.head?_cons, if_true]
        rw [if_neg]
        · simpa using htake
        · simp
          refine ⟨by omega, by omega, fun h hr => hdd ⟨hr, ?_⟩⟩
          apply List.length_eq_zero.mp
          omega
    · have hcond : ¬ ((c :: rest) = [] ∨ ((c :: rest) = [DOT] ∧ e = [])) := by
        simp [hc]
      rw [if_neg hcond]
      simp only [List.head?_cons, if_neg hc]
      rw [if_neg]
      · simpa using htake
      · simp
        omega

theorem exists_last_dot (f : JSString) (h : DOT ∈ f) :
    ∃ stem e, f = stem ++ DOT :: e ∧ DOT ∉ e := by
  induction f with
  | nil => simp at h
  | cons c cs ih =>
    by_cases hcs : DOT ∈ cs
    · obtain ⟨stem, e, hf, he⟩ := ih hcs
      exact ⟨c :: stem, e, by rw [hf]; rfl, he⟩
    · have hc : DOT = c := by
        rcases List.mem_cons.mp h with h1 | h1
        · exact h1
        · exact absurd h1 hcs
      exact ⟨[], cs, by rw [hc]; rfl, hcs⟩

/-- A name without `/` that has an extension: the extension is the text from
the last `.` on, and what `parseFilename` takes as the stem is the text before
that `.`. -/
theorem extname_decomposition (f : JSString) (hs : SLASH ∉ f) (hext : extname f ≠ []) :
    ∃ stem e, f = stem ++ DOT :: e ∧ DOT ∉ e ∧ extname f = DOT :: e ∧
      nameWithoutExt f = stem := by
  have hdot : DOT ∈ f := by
    by_contra hd
    exact hext (extname_of_no_dot f hd hs)
  obtain ⟨stem, e, hf, he⟩ := exists_last_dot f hdot
  have hs1 : SLASH ∉ stem := fun h => hs (by rw [hf]; simp [h])
  have hs2 : SLASH ∉ e := fun h => hs (by rw [hf]; simp [h])
  have hval := extname_of_dot stem e hs1 hs2 he
  rw [← hf] at hval
  refine ⟨stem, e, hf, he, ?_, ?_⟩
  · by_cases hc : stem = [] ∨ (stem = [DOT] ∧ e = [])
    · rw [if_pos hc] at hval
      exact absurd hval hext
    · rw [if_neg hc] at hval
      exact hval
  · unfold nameWithoutExt
    rw [hf]
    exact nameWithoutExt_of_dot stem e he

/-- For a name without `/`, entering the index means: the name is
`stem.ext`, the text `.ext` from its last `.` on is, lower-cased, on the
allow-list, and `stem` has at least 4 dash-separated tokens. -/
theorem indexed_iff (host : Host) (hl : host.toLowerCase [] = []) (f : JSString)
    (hs : SLASH ∉ f) :
    Indexed host f ↔
      ∃ stem e, f = stem ++ DOT :: e ∧ DOT ∉ e ∧
        host.toLowerCase (DOT :: e) ∈ IMAGE_EXTENSIONS ∧
        4 ≤ (split (fun c => c == DASH) stem).length := by
  constructor
  · intro hi
    have hext : extname f ≠ [] := by
      intro h0
      have h1 := hi.1
      rw [h0, hl] at h1
      revert h1
      decide
    obtain ⟨stem, e, hf, he, hx, hn⟩ := extname_decomposition f hs hext
    refine ⟨stem, e, hf, he, ?_, ?_⟩
    · rw [← hx]; exact hi.1
    · rw [← hn]; exact hi.2
  · rintro ⟨stem, e, hf, he, hlow, h4⟩
    have hs1 : SLASH ∉ stem := fun h => hs (by rw [hf]; simp [h])
    have hs2 : SLASH ∉ e := fun h => hs (by rw [hf]; simp [h])
    have hval := extname_of_dot stem e hs1 hs2 he
    have hc : ¬ (stem = [] ∨ (stem = [DOT] ∧ e = [])) := by
      rintro (h | ⟨h, _⟩)
      · subst h
        revert h4
        decide
      · subst h
        revert h4
        decide
    rw [if_neg hc, ← hf] at hval
    refine ⟨?_, ?_⟩
    · rw [hval]; exact hlow
    · unfold nameWithoutExt
      rw [hf, nameWithoutExt_of_dot stem e he]
      exact h4

/-! ## The scan (scan-archive.js, `scanArchive`) -/

theorem scanFile_eq (host : Host) (year : JSString) (acc : List MediaRecord)
    (filename : JSString) :
    scanFile host year acc filename = acc ++ (fileRecord host year filename).toList := by
  unfold scanFile fileRecord
  simp only []
  cases hc : IMAGE_EXTENSIONS.contains (host.toLowerCase (extname filename)) with
  | false => simp
  | true =>
    cases hp : parseFilename filename year with
    | none => simp
    | some parsed => simp

theorem foldl_scanFile (host : Host) (year : JSString) (files : List JSString)
    (acc : List MediaRecord) :
    files.foldl (scanFile host year) acc = acc ++ files.filterMap (fileRecord host year) := by
  induction files generalizing acc with
  | nil => simp
  | cons f fs ih =>
    rw [List.foldl_cons, ih, scanFile_eq]
    cases hr : fileRecord host year f with
    | none => simp [List.filterMap_cons, hr]
    | some r => simp [List.filterMap_cons, hr]

theorem scanYear_perm_filterMap (host : Host) (year : JSString) (files : List JSString) :
    (scanYear host year files).Perm (files.filterMap (fileRecord host year)) := by
  unfold scanYear arraySort
  rw [foldl_scanFile, List.nil_append]
  exact List.perm_insertionSort _ _

theorem fileRecord_isSome_iff (host : Host) (year filename : JSString) :
    (fileRecord host year filename).isSome = true ↔ Indexed host filename := by
  unfold fileRecord Indexed nameWithoutExt
  by_cases hc : host.toLowerCase (extname filename) ∈ IMAGE_EXTENSIONS
  · have hn := parseFilename_eq_none_iff filename year
    cases hp : parseFilename filename year with
    | none =>
      rw [hp] at hn
      have := hn.mp rfl
      simp [hc]
      omega
    | some parsed =>
      rw [hp] at hn
      have : ¬ (split (fun c => c == DASH)
          (substring filename 0 (lastIndexOf DOT filename))).length < 4 :=
        fun h => by simpa using hn.mpr h
      simp [hc]
      omega
  · simp [hc]

theorem replaceFirst_of_allowed (ext : JSString) (h : ext ∈ IMAGE_EXTENSIONS) :
    DOT :: replaceFirst DOT ext = ext := by
  have h4 : ext = utf16 ".jpg" ∨ ext = utf16 ".jpeg" ∨ ext = utf16 ".png" ∨ ext = utf16 ".gif" := by
    simpa [IMAGE_EXTENSIONS] using h
  rcases h4 with h | h | h | h <;> subst h <;> decide

theorem fileRecord_fields (host : Host) (year filename : JSString) (r : MediaRecord)
    (h : fileRecord host year filename = some r) :
    r.filename = filename ∧ r.year = year ∧
      DOT :: r.extension = host.toLowerCase (extname filename) ∧
      r.id = year ++ [DASH] ++ r.artist ++ [DASH] ++ r.sequence ∧
      r.path = utf16 "img/Archive/" ++ year ++ [SLASH] ++ filename ∧
      r.artistDisplay = formatArtistName host r.artist ∧
      parseFilename filename year
        = some { artist := r.artist, sequence := r.sequence, medium := r.medium } := by
  unfold fileRecord at h
  by_cases hc : host.toLowerCase (extname filename) ∈ IMAGE_EXTENSIONS
  · cases hp : parseFilename filename year with
    | none => simp [hc, hp] at h
    | some parsed =>
      simp [hc, hp] at h
      subst h
      simp [mkRecord, replaceFirst_of_allowed _ hc]
  · simp [hc] at h

/-! ## Collations -/

theorem compareByKey_le_iff (key : JSString → JSString) (a b : JSString) :
    compareByKey key a b ≤ 0 ↔ key a ≤ key b := by
  unfold compareByKey
  by_cases h1 : key a < key b
  · simp [h1, le_of_lt h1]
  · by_cases h2 : key a = key b
    · simp [h2]
    · have h3 : ¬ key a ≤ key b := fun hle => (lt_or_eq_of_le hle).elim h1 h2
      simp [h1, h2, h3]

theorem compareByKey_lt_iff (key : JSString → JSString) (a b : JSString) :
    compareByKey key a b < 0 ↔ key a < key b := by
  unfold compareByKey
  by_cases h1 : key a < key b
  · simp [h1]
  · by_cases h2 : key a = key b
    · simp [h2]
    · simp [h1, h2]

theorem compareByKey_pos_iff (key : JSString → JSString) (a b : JSString) :
    0 < compareByKey key a b ↔ key b < key a := by
  unfold compareByKey
  by_cases h1 : key a < key b
  · simp [h1, not_lt_of_lt h1]
  · by_cases h2 : key a = key b
    · simp [h2]
    · have h3 : key b < key a := lt_of_le_of_ne (not_lt.mp h1) (Ne.symm h2)
      simp [h1, h2, h3]

theorem compareByKey_eq_zero_iff (key : JSString → JSString) (a b : JSString) :
    compareByKey key a b = 0 ↔ key a = key b := by
  unfold compareByKey
  by_cases h1 : key a < key b
  · simp [h1, ne_of_lt h1]
  · by_cases h2 : key a = key b
    · simp [h2]
    · simp [h1, h2]

/-- A comparison through a sort key is a collation. -/
theorem collation_compareByKey (key : JSString → JSString) : Collation (compareByKey key) := by
  refine ⟨?_, ?_⟩
  · intro a b
    rw [compareByKey_lt_iff, compareByKey_pos_iff]
  · intro a b c
    simp only [compareByKey_le_iff]
    exact le_trans

theorem collation_refl (lc : JSString → JSString → Int) (hc : Collation lc) (a : JSString) :
    lc a a = 0 := by
  have h := hc.1 a a
  omega

theorem collation_le_symm (lc : JSString → JSString → Int) (hc : Collation lc)
    (a b : JSString) (h : lc a b = 0) : lc b a = 0 := by
  have h1 := hc.1 a b
  have h2 := hc.1 b a
  omega

theorem collation_lt_trans (lc : JSString → JSString → Int) (hc : Collation lc)
    (a b c : JSString) (h1 : lc a b < 0) (h2 : lc b c ≤ 0) : lc a c < 0 := by
  have hle : lc a c ≤ 0 := hc.2 a b c (le_of_lt h1) h2
  have hne : lc a c ≠ 0 := by
    intro h0
    have hca : lc c a ≤ 0 := le_of_eq (collation_le_symm lc hc a c h0)
    have hba : lc b a ≤ 0 := hc.2 b c a h2 hca
    have : 0 < lc b a := (hc.1 a b).mp h1
    omega
  omega

theorem collation_le_lt_trans (lc : JSString → JSString → Int) (hc : Collation lc)
    (a b c : JSString) (h1 : lc a b ≤ 0) (h2 : lc b c < 0) : lc a c < 0 := by
  have hle : lc a c ≤ 0 := hc.2 a b c h1 (le_of_lt h2)
  have hne : lc a c ≠ 0 := by
    intro h0
    have hca : lc c a ≤ 0 := le_of_eq (collation_le_symm lc hc a c h0)
    have hcb : lc c b ≤ 0 := hc.2 c a b hca h1
    have : 0 < lc c b := (hc.1 b c).mp h2
    omega
  omega

theorem compareItems_le_iff (host : Host) (hc : Collation host.localeCompare)
    (p q : MediaRecord)
    (hd : host.localeCompare p.artist q.artist = 0 → p.artist = q.artist) :
    compareItems host p q ≤ 0 ↔ InOrder host.localeCompare p q := by
  unfold compareItems InOrder
  by_cases h : p.artist = q.artist
  · have h0 : host.localeCompare p.artist q.artist = 0 := by
      rw [h]; exact collation_refl _ hc _
    simp [h]
    intro hlt
    rw [h] at h0
    omega
  · have hne : host.localeCompare p.artist q.artist ≠ 0 := fun h0 => h (hd h0)
    simp [h]
    omega

theorem inOrder_total (lc : JSString → JSString → Int) (hc : Collation lc)
    (p q : MediaRecord) (hd : lc p.artist q.artist = 0 → p.artist = q.artist) :
    InOrder lc p q ∨ InOrder lc q p := by
  unfold InOrder
  by_cases h : p.artist = q.artist
  · by_cases hs : lc p.sequence q.sequence ≤ 0
    · exact Or.inl (Or.inr ⟨h, hs⟩)
    · have : lc q.sequence p.sequence < 0 := (hc.1 _ _).mpr (by omega)
      exact Or.inr (Or.inr ⟨h.symm, le_of_lt this⟩)
  · have hne : lc p.artist q.artist ≠ 0 := fun h0 => h (hd h0)
    by_cases hl : lc p.artist q.artist < 0
    · exact Or.inl (Or.inl hl)
    · exact Or.inr (Or.inl ((hc.1 _ _).mpr (by omega)))

theorem inOrder_trans (lc : JSString → JSString → Int) (hc : Collation lc)
    (p q r : MediaRecord) (h1 : InOrder lc p q) (h2 : InOrder lc q r) : InOrder lc p r := by
  unfold InOrder at *
  rcases h1 with h1 | ⟨e1, s1⟩
  · rcases h2 with h2 | ⟨e2, _⟩
    · exact Or.inl (collation_lt_trans lc hc _ _ _ h1 (le_of_lt h2))
    · rw [← e2]; exact Or.inl h1
  · rcases h2 with h2 | ⟨e2, s2⟩
    · rw [e1]; exact Or.inl h2
    · exact Or.inr ⟨e1.trans e2, hc.2 _ _ _ s1 s2⟩

/-- Inserting into a sorted list keeps it sorted when the relation is total
and transitive between the new element and the elements of the list. -/
theorem pairwise_orderedInsert_of_mem {α : Type} (r : α → α → Prop) [DecidableRel r]
    (a : α) (s : List α) (hs : s.Pairwise r)
    (htot : ∀ b ∈ s, r a b ∨ r b a)
    (htr : ∀ b ∈ s, ∀ c ∈ s, r a b → r b c → r a c) :
    (s.orderedInsert r a).Pairwise r := by
  induction s with
  | nil => simp
  | cons b l ih =>
    rw [List.pairwise_cons] at hs
    by_cases hab : r a b
    · rw [List.orderedInsert, if_pos hab, List.pairwise_cons]
      refine ⟨?_, List.pairwise_cons.mpr hs⟩
      intro x hx
      rcases List.mem_cons.mp hx with hx | hx
      · rw [hx]; exact hab
      · exact htr b (by simp) x (List.mem_cons_of_mem _ hx) hab (hs.1 x hx)
    · rw [List.orderedInsert, if_neg hab, List.pairwise_cons]
      have hba : r b a := (htot b (by simp)).resolve_left hab
      refine ⟨?_, ih hs.2 (fun x hx => htot x (List.mem_cons_of_mem _ hx))
        (fun x hx y hy => htr x (List.mem_cons_of_mem _ hx) y (List.mem_cons_of_mem _ hy))⟩
      intro x hx
      rcases (List.mem_orderedInsert r).mp hx with hx | hx
      · rw [hx]; exact hba
      · exact hs.1 x hx

/-- Insertion sort sorts a list whose elements the relation orders totally and
transitively. -/
theorem pairwise_insertionSort_of_mem {α : Type} (r : α → α → Prop) [DecidableRel r]
    (l : List α) (htot : ∀ a ∈ l, ∀ b ∈ l, r a b ∨ r b a)
    (htr : ∀ a ∈ l, ∀ b ∈ l, ∀ c ∈ l, r a b → r b c → r a c) :
    (l.insertionSort r).Pairwise r := by
  induction l with
  | nil => simp
  | cons a l ih =>
    rw [List.insertionSort]
    have hmem : ∀ x, x ∈ l.insertionSort r → x ∈ l :=
      fun x hx => (List.perm_insertionSort r l).mem_iff.mp hx
    apply pairwise_orderedInsert_of_mem
    · exact ih (fun x hx y hy => htot x (List.mem_cons_of_mem _ hx) y (List.mem_cons_of_mem _ hy))
        (fun x hx y hy z hz => htr x (List.mem_cons_of_mem _ hx) y (List.mem_cons_of_mem _ hy)
          z (List.mem_cons_of_mem _ hz))
    · intro b hb
      exact htot a (by simp) b (List.mem_cons_of_mem _ (hmem b hb))
    · intro b hb c hc
      exact htr a (by simp) b (List.mem_cons_of_mem _ (hmem b hb)) c
        (List.mem_cons_of_mem _ (hmem c hc))

theorem scanYear_pairwise (host : Host) (hc : Collation host.localeCompare)
    (year : JSString) (files : List JSString)
    (hd : ArtistsDistinguished host.localeCompare (scanYear host year files)) :
    (scanYear host year files).Pairwise (InOrder host.localeCompare) := by
  have hmem : ∀ x, x ∈ files.foldl (scanFile host year) [] → x ∈ scanYear host year files :=
    fun x hx => (List.perm_insertionSort _ _).mem_iff.mpr hx
  have hiff : ∀ a ∈ files.foldl (scanFile host year) [],
      ∀ b ∈ files.foldl (scanFile host year) [],
      (compareItems host a b ≤ 0 ↔ InOrder host.localeCompare a b) :=
    fun a ha b hb => compareItems_le_iff host hc a b (hd a (hmem a ha) b (hmem b hb))
  have hs : (scanYear host year files).Pairwise (fun a b => compareItems host a b ≤ 0) := by
    unfold scanYear arraySort
    apply pairwise_insertionSort_of_mem
    · intro a ha b hb
      rw [hiff a ha b hb, hiff b hb a ha]
      exact inOrder_total _ hc a b (hd a (hmem a ha) b (hmem b hb))
    · intro a ha b hb c hc1 h1 h2
      rw [hiff a ha b hb] at h1
      rw [hiff b hb c hc1] at h2
      rw [hiff a ha c hc1]
      exact inOrder_trans _ hc a b c h1 h2
  exact List.Pairwise.imp_of_mem
    (fun {a b} ha hb h => (compareItems_le_iff host hc a b (hd a ha b hb)).mp h) hs

theorem scanArchiveStep_eq (host : Host) (fs : FileSystem) (archiveData : ArchiveData)
    (year : JSString) :
    scanArchiveStep host fs archiveData year
      = objSet archiveData year (yearEntry host fs year) := by
  unfold scanArchiveStep yearEntry
  cases fs (yearPath year) <;> rfl

theorem scanArchive_eq (host : Host) (fs : FileSystem) :
    scanArchive host fs
      = [(utf16 "2022", yearEntry host fs (utf16 "2022")),
         (utf16 "2023", yearEntry host fs (utf16 "2023")),
         (utf16 "2024", yearEntry host fs (utf16 "2024"))] := by
  have h1 : (utf16 "2022" == utf16 "2023") = false := by decide
  have h2 : (utf16 "2022" == utf16 "2024") = false := by decide
  have h3 : (utf16 "2023" == utf16 "2024") = false := by decide
  simp only [scanArchive, YEARS, List.foldl_cons, List.foldl_nil, scanArchiveStep_eq, objSet,
    List.any_nil, List.any_cons, List.nil_append, List.cons_append, h1, h2, h3,
    Bool.false_or, Bool.or_false, Bool.false_eq_true, if_false]

theorem objGet_scanArchive (host : Host) (fs : FileSystem) (year : JSString)
    (hy : year ∈ YEARS) :
    objGet (scanArchive host fs) year = some (yearEntry host fs year) := by
  have h1 : (utf16 "2022" == utf16 "2023") = false := by decide
  have h2 : (utf16 "2022" == utf16 "2024") = false := by decide
  have h3 : (utf16 "2023" == utf16 "2024") = false := by decide
  have hy3 : year = utf16 "2022" ∨ year = utf16 "2023" ∨ year = utf16 "2024" := by
    simpa [YEARS] using hy
  rw [scanArchive_eq]
  rcases hy3 with h | h | h <;> subst h <;>
    simp [objGet, List.find?_cons, h1, h2, h3]

theorem yearPath_injective : Function.Injective yearPath := by
  intro a b h
  unfold yearPath at h
  exact List.append_cancel_left h

theorem filterMap_eq_filter_map {α β : Type} (g : α → Option β) (d : α → β) (l : List α) :
    l.filterMap g = (l.filter (fun x => (g x).isSome)).map (fun x => (g x).getD (d x)) := by
  induction l with
  | nil => rfl
  | cons x xs ih =>
    cases hg : g x with
    | none => simp [List.filterMap_cons, hg, ih]
    | some y => simp [List.filterMap_cons, hg, ih]

/-- C4, as stated, fails: under an alphabetical collation the scan stores
`alpha` before `Bravo`, while in plain lexicographic order of code units
`Bravo` comes first. -/
theorem scanYear_not_plain_lexicographic :
    (scanYear alphabeticHost (utf16 "2022")
        [utf16 "2022-Bravo-01-bts.jpg", utf16 "2022-alpha-01-bts.jpg"]).map (fun r => r.artist)
      = [utf16 "alpha", utf16 "Bravo"] ∧
    utf16 "Bravo" < utf16 "alpha" ∧
    ¬ List.Chain' InPlainOrder
      (scanYear alphabeticHost (utf16 "2022")
        [utf16 "2022-Bravo-01-bts.jpg", utf16 "2022-alpha-01-bts.jpg"]) := by
  refine ⟨by decide, by decide, ?_⟩
  have h : scanYear alphabeticHost (utf16 "2022")
      [utf16 "2022-Bravo-01-bts.jpg", utf16 "2022-alpha-01-bts.jpg"]
      = [mkRecord alphabeticHost (utf16 "2022") (utf16 "2022-alpha-01-bts.jpg") (utf16 ".jpg")
          { artist := utf16 "alpha", sequence := utf16 "01", medium := utf16 "bts" },
         mkRecord alphabeticHost (utf16 "2022") (utf16 "2022-Bravo-01-bts.jpg") (utf16 ".jpg")
          { artist := utf16 "Bravo", sequence := utf16 "01", medium := utf16 "bts" }] := by
    decide
  rw [h, List.chain'_pair]
  decide

/-- C4, amended: when no two records of the year have distinct artists that
tie under `localeCompare`, the list stored for the year is sorted ascending by
(artist, sequence) under the collation of `localeCompare`, a total preorder
on strings, with no numeric interpretation: of two records the earlier has the
artist that collates first, or the same artist and a sequence that does not
collate after. Under code-unit collation `alpha` precedes `bravo` and, for one
artist, `10` precedes `2`. -/
theorem scanYear_sorted_by_collation :
    (∀ host : Host, Collation host.localeCompare →
      ∀ (year : JSString) (files : List JSString),
        ArtistsDistinguished host.localeCompare (scanYear host year files) →
        (scanYear host year files).Pairwise (InOrder host.localeCompare) ∧
        (scanYear host year files).Chain' (InOrder host.localeCompare)) ∧
    (scanYear asciiHost (utf16 "2022")
        [utf16 "2022-bravo-01-bts.jpg", utf16 "2022-alpha-01-bts.jpg"]).map (fun r => r.artist)
      = [utf16 "alpha", utf16 "bravo"] ∧
    (scanYear asciiHost (utf16 "2022")
        [utf16 "2022-alpha-2-bts.jpg", utf16 "2022-alpha-10-bts.jpg"]).map (fun r => r.sequence)
      = [utf16 "10", utf16 "2"] := by
  refine ⟨fun host hc year files hd => ?_, by decide, by decide⟩
  have h := scanYear_pairwise host hc year files hd
  exact ⟨h, List.Pairwise.chain' h⟩

/-- C4, amended, at a host whose collation ties the canonically equivalent
strings U+00E9 and U+0065 U+0301, and a directory of three files, two of them
of the artist U+00E9. -/
theorem scanYear_sorted_by_collation_witness :
    Collation canonicalHost.localeCompare ∧
    canonicalHost.localeCompare [233] [101, 769] = 0 ∧
    ArtistsDistinguished canonicalHost.localeCompare
      (scanYear canonicalHost (utf16 "2022")
        [utf16 "2022-" ++ [233] ++ utf16 "-02-bts.jpg", utf16 "2022-bravo-01-bts.jpg",
          utf16 "2022-" ++ [233] ++ utf16 "-01-bts.jpg"]) ∧
    (scanYear canonicalHost (utf16 "2022")
      [utf16 "2022-" ++ [233] ++ utf16 "-02-bts.jpg", utf16 "2022-bravo-01-bts.jpg",
        utf16 "2022-" ++ [233] ++ utf16 "-01-bts.jpg"]).Chain'
      (InOrder canonicalHost.localeCompare) :=
  ⟨collation_compareByKey composeAcute, by decide, by decide,
    (scanYear_sorted_by_collation.1 canonicalHost (collation_compareByKey composeAcute)
      (utf16 "2022")
      [utf16 "2022-" ++ [233] ++ utf16 "-02-bts.jpg", utf16 "2022-bravo-01-bts.jpg",
        utf16 "2022-" ++ [233] ++ utf16 "-01-bts.jpg"] (by decide)).2⟩

/-- C5: the list stored for a year is a permutation of one record per listed
file name whose lower-cased extension is on the allow-list and whose stem has
at least 4 dash-separated tokens; the record of such a name is the one built
from its parse, its `filename` is the name and its `extension` is the
lower-cased extension without the leading dot. Every record comes from such a
name, and a name without extension is not one of them. For a name without `/`
the extension is the text from the last `.` on and the stem the text before
it. The host lower-cases the empty string to itself. -/
theorem scanYear_perm_indexed (host : Host) (year : JSString) (files : List JSString) :
    ∃ recordOf : JSString → MediaRecord,
      (scanYear host year files).Perm
        ((files.filter (fun f => decide (Indexed host f))).map recordOf) ∧
      (∀ f, Indexed host f →
        (∃ parsed, parseFilename f year = some parsed ∧
          recordOf f = mkRecord host year f (host.toLowerCase (extname f)) parsed) ∧
        (recordOf f).filename = f ∧
        DOT :: (recordOf f).extension = host.toLowerCase (extname f)) ∧
      (∀ r ∈ scanYear host year files, r.filename ∈ files ∧ Indexed host r.filename) ∧
      (host.toLowerCase [] = [] → ∀ f, extname f = [] → ¬ Indexed host f) ∧
      (host.toLowerCase [] = [] → ∀ f, SLASH ∉ f →
        (Indexed host f ↔
          ∃ stem e, f = stem ++ DOT :: e ∧ DOT ∉ e ∧
            host.toLowerCase (DOT :: e) ∈ IMAGE_EXTENSIONS ∧
            4 ≤ (split (fun c => c == DASH) stem).length)) := by
  let dflt : JSString → MediaRecord := fun f => mkRecord host year f [] ⟨[], [], []⟩
  have hrec : ∀ f, Indexed host f →
      ∃ r, fileRecord host year f = some r ∧ (fileRecord host year f).getD (dflt f) = r := by
    intro f hf
    have hs := (fileRecord_isSome_iff host year f).mpr hf
    cases hr : fileRecord host year f with
    | none => simp [hr] at hs
    | some r => exact ⟨r, rfl, rfl⟩
  have hperm : (scanYear host year files).Perm
      ((files.filter (fun f => decide (Indexed host f))).map
        (fun f => (fileRecord host year f).getD (dflt f))) := by
    have h1 := scanYear_perm_filterMap host year files
    rw [filterMap_eq_filter_map (fileRecord host year) dflt files] at h1
    have h2 : files.filter (fun x => (fileRecord host year x).isSome)
        = files.filter (fun f => decide (Indexed host f)) := by
      apply List.filter_congr
      intro f _
      by_cases hi : Indexed host f
      · simp [hi, (fileRecord_isSome_iff host year f).mpr hi]
      · have : (fileRecord host year f).isSome = false := by
          cases hb : (fileRecord host year f).isSome with
          | false => rfl
          | true => exact absurd ((fileRecord_isSome_iff host year f).mp hb) hi
        simp [hi, this]
    rw [h2] at h1
    exact h1
  refine ⟨fun f => (fileRecord host year f).getD (dflt f), hperm, ?_, ?_, ?_,
    fun hl f hs => indexed_iff host hl f hs⟩
  · intro f hf
    obtain ⟨r, hr, hd⟩ := hrec f hf
    have hfields := fileRecord_fields host year f r hr
    simp only [hd]
    refine ⟨?_, hfields.1, hfields.2.2.1⟩
    unfold fileRecord at hr
    rw [if_pos (by simpa using hf.1)] at hr
    cases hp : parseFilename f year with
    | none => simp [hp] at hr
    | some parsed =>
      refine ⟨parsed, rfl, ?_⟩
      simp [hp] at hr
      exact hr.symm
  · intro r hr
    have hmem := (hperm.mem_iff).mp hr
    rw [List.mem_map] at hmem
    obtain ⟨f, hf, hfr⟩ := hmem
    rw [List.mem_filter] at hf
    have hi : Indexed host f := by simpa using hf.2
    obtain ⟨r1, hr1, hd⟩ := hrec f hi
    have hname : r.filename = f := by
      rw [← hfr]
      simp only [hd]
      exact (fileRecord_fields host year f r1 hr1).1
    rw [hname]
    exact ⟨hf.1, hi⟩
  · intro hl f hext hi
    have h := hi.1
    rw [hext, hl] at h
    revert h
    decide

/-- C5, at a directory with an upper-case extension, a text file, a name
of three tokens and a name without extension. -/
theorem scanYear_perm_indexed_witness :
    ∃ recordOf : JSString → MediaRecord,
      (scanYear asciiHost (utf16 "2022")
          [utf16 "2022-bravo-01-bts.JPG", utf16 "2022-alpha-01-final.txt",
            utf16 "2022-alpha-01.png", utf16 "2022-alpha-01-final"]).Perm
        (([utf16 "2022-bravo-01-bts.JPG", utf16 "2022-alpha-01-final.txt",
            utf16 "2022-alpha-01.png", utf16 "2022-alpha-01-final"].filter
          (fun f => decide (Indexed asciiHost f))).map recordOf) ∧
      (recordOf (utf16 "2022-bravo-01-bts.JPG")).filename = utf16 "2022-bravo-01-bts.JPG" ∧
      DOT :: (recordOf (utf16 "2022-bravo-01-bts.JPG")).extension = utf16 ".jpg" ∧
      ¬ Indexed asciiHost (utf16 "2022-alpha-01-final") := by
  obtain ⟨recordOf, hperm, hrec, _, hnone, _⟩ := scanYear_perm_indexed asciiHost (utf16 "2022")
    [utf16 "2022-bravo-01-bts.JPG", utf16 "2022-alpha-01-final.txt",
      utf16 "2022-alpha-01.png", utf16 "2022-alpha-01-final"]
  have h := hrec (utf16 "2022-bravo-01-bts.JPG") (by decide)
  refine ⟨recordOf, hperm, h.2.1, ?_, hnone (by decide) _ (by decide)⟩
  have he : asciiHost.toLowerCase (extname (utf16 "2022-bravo-01-bts.JPG")) = utf16 ".jpg" := by
    decide
  rw [← he]
  exact h.2.2

theorem mem_scanYear_iff (host : Host) (year : JSString) (files : List JSString)
    (r : MediaRecord) :
    r ∈ scanYear host year files ↔ ∃ f ∈ files, fileRecord host year f = some r := by
  rw [(scanYear_perm_filterMap host year files).mem_iff, List.mem_filterMap]

theorem parseFilename_year_irrelevant (filename y1 y2 : JSString) :
    parseFilename filename y1 = parseFilename filename y2 := rfl

theorem parseFilename_year_token_irrelevant (t1 t2 body e y1 y2 : JSString)
    (h1 : DASH ∉ t1) (h2 : DASH ∉ t2) (he : DOT ∉ e) :
    parseFilename (t1 ++ [DASH] ++ body ++ [DOT] ++ e) y1
      = parseFilename (t2 ++ [DASH] ++ body ++ [DOT] ++ e) y2 := by
  have hsep : ∀ w : JSString, DASH ∉ w → ∀ c ∈ w, (fun c => c == DASH) c = false := by
    intro w hw c hc
    have : c ≠ DASH := fun hcd => hw (hcd ▸ hc)
    simpa using this
  have hname : ∀ t : JSString, t ++ [DASH] ++ body ++ [DOT] ++ e
      = (t ++ DASH :: body) ++ DOT :: e := by
    intro t; simp [List.append_assoc]
  unfold parseFilename
  simp only []
  rw [hname t1, hname t2, nameWithoutExt_of_dot _ e he, nameWithoutExt_of_dot _ e he,
    split_append_sep _ t1 DASH _ (hsep t1 h1) (by simp),
    split_append_sep _ t2 DASH _ (hsep t2 h2) (by simp)]
  simp [slice3]

/-- C6: the directory's year is authoritative. A file listed in the directory
of a configured year `Y` that passes the extension check and parses has a
record in the list of `Y`, with year `Y`, id `Y-artist-sequence` and path
`img/Archive/Y/filename`, whatever its first token is; every record in the list
of `Y` has these fields; the record `parseFilename` returns depends neither on
the expected year nor on the first dash-separated token of the name. -/
theorem directory_year_authoritative (host : Host) (fs : FileSystem) :
    (∀ Y ∈ YEARS, ∀ files, fs (yearPath Y) = some files →
      (∀ f ∈ files, ∀ parsed, host.toLowerCase (extname f) ∈ IMAGE_EXTENSIONS →
        parseFilename f Y = some parsed →
        ∃ r ∈ (objGet (scanArchive host fs) Y).getD [],
          r.filename = f ∧ r.year = Y ∧ r.artist = parsed.artist ∧
          r.sequence = parsed.sequence ∧ r.medium = parsed.medium ∧
          r.id = Y ++ [DASH] ++ parsed.artist ++ [DASH] ++ parsed.sequence ∧
          r.path = utf16 "img/Archive/" ++ Y ++ [SLASH] ++ f) ∧
      (∀ r ∈ (objGet (scanArchive host fs) Y).getD [],
        r.year = Y ∧ r.id = Y ++ [DASH] ++ r.artist ++ [DASH] ++ r.sequence ∧
        r.path = utf16 "img/Archive/" ++ Y ++ [SLASH] ++ r.filename)) ∧
    (∀ f y1 y2, parseFilename f y1 = parseFilename f y2) ∧
    (∀ t1 t2 body e y1 y2 : JSString, DASH ∉ t1 → DASH ∉ t2 → DOT ∉ e →
      parseFilename (t1 ++ [DASH] ++ body ++ [DOT] ++ e) y1
        = parseFilename (t2 ++ [DASH] ++ body ++ [DOT] ++ e) y2) := by
  refine ⟨?_, parseFilename_year_irrelevant, parseFilename_year_token_irrelevant⟩
  intro Y hY files hfs
  have hget : (objGet (scanArchive host fs) Y).getD [] = scanYear host Y files := by
    rw [objGet_scanArchive host fs Y hY]
    simp [yearEntry, hfs]
  rw [hget]
  constructor
  · intro f hf parsed hext hparse
    have hrec : fileRecord host Y f
        = some (mkRecord host Y f (host.toLowerCase (extname f)) parsed) := by
      unfold fileRecord
      rw [if_pos (by simpa using hext), hparse]
      rfl
    refine ⟨_, (mem_scanYear_iff host Y files _).mpr ⟨f, hf, hrec⟩, ?_⟩
    simp [mkRecord]
  · intro r hr
    obtain ⟨f, _, hrec⟩ := (mem_scanYear_iff host Y files r).mp hr
    have h := fileRecord_fields host Y f r hrec
    refine ⟨h.2.1, h.2.2.2.1, ?_⟩
    rw [h.1]
    exact h.2.2.2.2.1

/-- C6, at a file of year token `2019` in the directory of `2022`. -/
theorem directory_year_authoritative_witness :
    (∃ r ∈ (objGet (scanArchive asciiHost
          (fun p => if p = yearPath (utf16 "2022") then some [utf16 "2019-alpha-01-bts.jpg"]
            else none)) (utf16 "2022")).getD [],
        r.filename = utf16 "2019-alpha-01-bts.jpg" ∧ r.year = utf16 "2022" ∧
        r.id = utf16 "2022-alpha-01" ∧
        r.path = utf16 "img/Archive/2022/2019-alpha-01-bts.jpg") ∧
    parseFilename (utf16 "2019" ++ [DASH] ++ utf16 "alpha-01-bts" ++ [DOT] ++ utf16 "jpg")
        (utf16 "2022")
      = parseFilename (utf16 "2022" ++ [DASH] ++ utf16 "alpha-01-bts" ++ [DOT] ++ utf16 "jpg")
        (utf16 "2024") := by
  have h := directory_year_authoritative asciiHost
    (fun p => if p = yearPath (utf16 "2022") then some [utf16 "2019-alpha-01-bts.jpg"] else none)
  refine ⟨?_, h.2.2 (utf16 "2019") (utf16 "2022") (utf16 "alpha-01-bts") (utf16 "jpg")
    (utf16 "2022") (utf16 "2024") (by decide) (by decide) (by decide)⟩
  obtain ⟨r, hr, h1, h2, h3, h4, _, h6, h7⟩ :=
    (h.1 (utf16 "2022") (by decide) [utf16 "2019-alpha-01-bts.jpg"] (by simp)).1
      (utf16 "2019-alpha-01-bts.jpg") (by simp)
      { artist := utf16 "alpha", sequence := utf16 "01", medium := utf16 "bts" }
      (by decide) (by decide)
  refine ⟨r, hr, h1, h2, ?_, ?_⟩
  · rw [h6]; decide
  · rw [h7]; decide

/-- C9: whatever directories exist, `scanArchive` returns an object whose keys
are exactly the configured years `2022`, `2023`, `2024`; a year whose directory
is absent maps to the empty list; and removing the directory of one year
leaves the lists of the other years as they were. -/
theorem scanArchive_keys_and_missing (host : Host) (fs : FileSystem) :
    objKeys (scanArchive host fs) = [utf16 "2022", utf16 "2023", utf16 "2024"] ∧
    objKeys (scanArchive host fs) = YEARS ∧
    (∀ y ∈ YEARS, fs (yearPath y) = none → objGet (scanArchive host fs) y = some []) ∧
    (∀ y0 y, y ∈ YEARS → y ≠ y0 →
      objGet (scanArchive host (removeDir fs (yearPath y0))) y
        = objGet (scanArchive host fs) y) ∧
    (∀ y0 ∈ YEARS,
      objGet (scanArchive host (removeDir fs (yearPath y0))) y0 = some []) := by
  refine ⟨?_, ?_, ?_, ?_, ?_⟩
  · rw [scanArchive_eq]; rfl
  · rw [scanArchive_eq]; rfl
  · intro y hy hfs
    rw [objGet_scanArchive host fs y hy]
    simp [yearEntry, hfs]
  · intro y0 y hy hne
    rw [objGet_scanArchive host _ y hy, objGet_scanArchive host fs y hy]
    have hp : yearPath y ≠ yearPath y0 := fun h => hne (yearPath_injective h)
    simp [yearEntry, removeDir, hp]
  · intro y0 hy0
    rw [objGet_scanArchive host _ y0 hy0]
    simp [yearEntry, removeDir]

/-- C9, at a root where `2023` is missing while `2022` and `2024` exist. -/
theorem scanArchive_keys_and_missing_witness :
    objGet (scanArchive asciiHost
        (fun p => if p = yearPath (utf16 "2023") then none
          else some [utf16 "2022-alpha-01-bts.jpg"])) (utf16 "2023") = some [] ∧
    objGet (scanArchive asciiHost
        (removeDir (fun _ => some [utf16 "2022-alpha-01-bts.jpg"]) (yearPath (utf16 "2023"))))
        (utf16 "2022")
      = objGet (scanArchive asciiHost (fun _ => some [utf16 "2022-alpha-01-bts.jpg"]))
        (utf16 "2022") :=
  ⟨(scanArchive_keys_and_missing asciiHost
      (fun p => if p = yearPath (utf16 "2023") then none
        else some [utf16 "2022-alpha-01-bts.jpg"])).2.2.1 (utf16 "2023") (by decide) (by simp),
    (scanArchive_keys_and_missing asciiHost
      (fun _ => some [utf16 "2022-alpha-01-bts.jpg"])).2.2.2.1 (utf16 "2023") (utf16 "2022")
      (by decide) (by decide)⟩

/-! ## Display names (`formatArtistName`, `capitalizeWords`) -/

theorem mem_split_not_sep (sep : Nat → Bool) (s : JSString) :
    ∀ w ∈ split sep s, ∀ c ∈ w, sep c = false := by
  induction s with
  | nil => simp [split]
  | cons c cs ih =>
    by_cases hc : sep c = true
    · intro w hw
      simp only [split, hc, if_true, List.mem_cons] at hw
      rcases hw with hw | hw
      · subst hw; simp
      · exact ih w hw
    · have hc1 : sep c = false := by simpa using hc
      obtain ⟨v, vs, h1, h2⟩ := split_cons_of_not_sep sep c cs hc1
      rw [h2]
      rw [h1] at ih
      intro w hw
      simp only [List.mem_cons] at hw
      rcases hw with hw | hw
      · subst hw
        intro x hx
        simp only [List.mem_cons] at hx
        rcases hx with hx | hx
        · subst hx; exact hc1
        · exact ih v (by simp) x hx
      · exact ih w (by simp [hw])

theorem mem_split_subset (sep : Nat → Bool) (s : JSString) :
    ∀ w ∈ split sep s, ∀ c ∈ w, c ∈ s := by
  induction s with
  | nil => simp [split]
  | cons c cs ih =>
    by_cases hc : sep c = true
    · intro w hw
      simp only [split, hc, if_true, List.mem_cons] at hw
      rcases hw with hw | hw
      · subst hw; simp
      · intro x hx; exact List.mem_cons_of_mem _ (ih w hw x hx)
    · have hc1 : sep c = false := by simpa using hc
      obtain ⟨v, vs, h1, h2⟩ := split_cons_of_not_sep sep c cs hc1
      rw [h2]
      rw [h1] at ih
      intro w hw
      simp only [List.mem_cons] at hw
      rcases hw with hw | hw
      · subst hw
        intro x hx
        simp only [List.mem_cons] at hx
        rcases hx with hx | hx
        · subst hx; simp
        · exact List.mem_cons_of_mem _ (ih v (by simp) x hx)
      · intro x hx; exact List.mem_cons_of_mem _ (ih w (by simp [hw]) x hx)

theorem split_join (sep : Nat → Bool) (d : Nat) (hd : sep d = true) (ws : List JSString)
    (hne : ws ≠ []) (hws : ∀ w ∈ ws, ∀ c ∈ w, sep c = false) :
    split sep (join [d] ws) = ws := by
  induction ws with
  | nil => exact absurd rfl hne
  | cons w rest ih =>
    cases rest with
    | nil =>
      simp only [join]
      exact split_of_no_sep sep w (hws w (by simp))
    | cons v vs =>
      have ih1 := ih (by simp) (fun x hx => hws x (List.mem_cons_of_mem _ hx))
      have e : join [d] (w :: v :: vs) = w ++ d :: join [d] (v :: vs) := by
        simp [join]
      rw [e, split_append_sep sep w d _ (hws w (by simp)) hd, ih1]

theorem mem_join (sep : JSString) (ws : List JSString) (c : Nat) (h : c ∈ join sep ws) :
    c ∈ sep ∨ ∃ w ∈ ws, c ∈ w := by
  induction ws with
  | nil => simp [join] at h
  | cons w rest ih =>
    cases rest with
    | nil =>
      simp only [join] at h
      exact Or.inr ⟨w, by simp, h⟩
    | cons v vs =>
      have e : join sep (w :: v :: vs) = w ++ sep ++ join sep (v :: vs) := rfl
      rw [e] at h
      simp only [List.mem_append] at h
      rcases h with (h | h) | h
      · exact Or.inr ⟨w, by simp, h⟩
      · exact Or.inl h
      · rcases ih h with h1 | ⟨x, hx, hc⟩
        · exact Or.inl h1
        · exact Or.inr ⟨x, List.mem_cons_of_mem _ hx, hc⟩

theorem capitalize_eq (host : Host) (hE : host.toUpperCase [] = []) (word : JSString) :
    host.toUpperCase (charAt0 word) ++ slice1 word = capitalizeFirst host word := by
  cases word with
  | nil => simp [charAt0, slice1, capitalizeFirst, hE]
  | cons c rest => simp [charAt0, slice1, capitalizeFirst]

theorem mem_capitalizeFirst (host : Host) (x : Nat) (word : JSString)
    (hx : x ∈ capitalizeFirst host word) :
    (∃ c ∈ word, x ∈ host.toUpperCase [c]) ∨ x ∈ word := by
  cases word with
  | nil => simp [capitalizeFirst] at hx
  | cons c rest =>
    simp only [capitalizeFirst, List.mem_append] at hx
    rcases hx with hx | hx
    · exact Or.inl ⟨c, by simp, hx⟩
    · exact Or.inr (List.mem_cons_of_mem _ hx)

theorem formatArtistName_eq (host : Host) (hE : host.toUpperCase [] = []) (slug : JSString) :
    formatArtistName host slug
      = join [SPACE] ((split (fun c => c == UNDERSCORE) slug).map (capitalizeFirst host)) := by
  unfold formatArtistName
  congr 1
  apply List.map_congr_left
  intro w _
  exact capitalize_eq host hE w

theorem capitalizeWords_eq (host : Host) (hE : host.toUpperCase [] = []) (str : JSString) :
    capitalizeWords host str
      = join [SPACE]
          ((split (fun c => c == DASH || c == UNDERSCORE) str).map (capitalizeFirst host)) := by
  unfold capitalizeWords
  congr 1
  apply List.map_congr_left
  intro w _
  exact capitalize_eq host hE w

theorem formatArtistName_word_count (host : Host) (hE : host.toUpperCase [] = [])
    (hS : ∀ c, c ≠ SPACE → SPACE ∉ host.toUpperCase [c]) (slug : JSString)
    (hslug : SPACE ∉ slug) :
    (split (fun c => c == SPACE) (formatArtistName host slug)).length
      = (split (fun c => c == UNDERSCORE) slug).length := by
  rw [formatArtistName_eq host hE, split_join (fun c => c == SPACE) SPACE (by simp)]
  · simp
  · simpa using split_ne_nil _ slug
  · intro w hw x hx
    rw [List.mem_map] at hw
    obtain ⟨v, hv, hvw⟩ := hw
    subst hvw
    have hne : x ≠ SPACE := by
      intro hxs
      subst hxs
      rcases mem_capitalizeFirst host _ v hx with ⟨c, hc, hu⟩ | hmem
      · have hcs : c ≠ SPACE := fun h => hslug (h ▸ mem_split_subset _ slug v hv c hc)
        exact hS c hcs hu
      · exact hslug (mem_split_subset _ slug v hv _ hmem)
    simpa using hne

theorem capitalizeWords_no_separator (host : Host) (hE : host.toUpperCase [] = [])
    (hU : ∀ c, c ≠ DASH → c ≠ UNDERSCORE →
      DASH ∉ host.toUpperCase [c] ∧ UNDERSCORE ∉ host.toUpperCase [c])
    (str : JSString) :
    DASH ∉ capitalizeWords host str ∧ UNDERSCORE ∉ capitalizeWords host str := by
  have key : ∀ x, x ∈ capitalizeWords host str → x ≠ DASH ∧ x ≠ UNDERSCORE := by
    intro x hx
    rw [capitalizeWords_eq host hE] at hx
    rcases mem_join _ _ x hx with hsp | ⟨w, hw, hxw⟩
    · have : x = SPACE := by simpa using hsp
      subst this
      exact ⟨by decide, by decide⟩
    · rw [List.mem_map] at hw
      obtain ⟨v, hv, hvw⟩ := hw
      subst hvw
      have hsep := mem_split_not_sep (fun c => c == DASH || c == UNDERSCORE) str v hv
      rcases mem_capitalizeFirst host x v hxw with ⟨c, hc, hu⟩ | hmem
      · have hc2 : c ≠ DASH ∧ c ≠ UNDERSCORE := by simpa using hsep c hc
        have h := hU c hc2.1 hc2.2
        exact ⟨fun e => h.1 (e ▸ hu), fun e => h.2 (e ▸ hu)⟩
      · simpa using hsep x hmem
  exact ⟨fun h => (key DASH h).1 rfl, fun h => (key UNDERSCORE h).2 rfl⟩

theorem formatArtistName_of_no_underscore (host : Host) (s : JSString)
    (h : UNDERSCORE ∉ s) :
    formatArtistName host s = host.toUpperCase (charAt0 s) ++ slice1 s := by
  unfold formatArtistName
  rw [split_of_no_sep _ s (fun c hc => by
    have : c ≠ UNDERSCORE := fun e => h (e ▸ hc)
    simpa using this)]
  simp [join]

/-- C7, as stated, fails: the slug `jane doe` is one `_`-separated word and its
display name `Jane doe` is two space-separated words. -/
theorem formatArtistName_word_count_fails :
    formatArtistName asciiHost (utf16 "jane doe") = utf16 "Jane doe" ∧
    (split (fun c => c == UNDERSCORE) (utf16 "jane doe")).length = 1 ∧
    (split (fun c => c == SPACE) (formatArtistName asciiHost (utf16 "jane doe"))).length = 2 := by
  refine ⟨by decide, by decide, by decide⟩

/-- C7, amended: `formatArtistName` splits the slug on `_` only, upper-cases
the first code unit of each word, leaving the rest of the word and an empty
word as they are, and joins the words with one space; when the slug holds no
space the output has as many space-separated words as the slug has
`_`-separated words; `alban_ovanessian` gives `Alban Ovanessian`. The host is
one that upper-cases the empty string to itself, no other character to a
string with a space, and the ASCII letters to their capitals. -/
theorem formatArtistName_spec (host : Host) (hE : host.toUpperCase [] = [])
    (hS : ∀ c, c ≠ SPACE → SPACE ∉ host.toUpperCase [c]) (hA : UppercasesAscii host) :
    (∀ slug, formatArtistName host slug
      = join [SPACE] ((split (fun c => c == UNDERSCORE) slug).map (capitalizeFirst host))) ∧
    capitalizeFirst host [] = [] ∧
    (∀ c rest, capitalizeFirst host (c :: rest) = host.toUpperCase [c] ++ rest) ∧
    (∀ slug, SPACE ∉ slug →
      (split (fun c => c == SPACE) (formatArtistName host slug)).length
        = (split (fun c => c == UNDERSCORE) slug).length) ∧
    formatArtistName host (utf16 "alban_ovanessian") = utf16 "Alban Ovanessian" := by
  refine ⟨formatArtistName_eq host hE, rfl, fun _ _ => rfl,
    fun slug h => formatArtistName_word_count host hE hS slug h, ?_⟩
  have hs : split (fun c => c == UNDERSCORE) (utf16 "alban_ovanessian")
      = [utf16 "alban", utf16 "ovanessian"] := by decide
  have ha : utf16 "alban" = 97 :: utf16 "lban" := by decide
  have ho : utf16 "ovanessian" = 111 :: utf16 "vanessian" := by decide
  rw [formatArtistName_eq host hE, hs, ha, ho]
  simp only [List.map, capitalizeFirst, join, hA 97 (by omega) (by omega),
    hA 111 (by omega) (by omega)]
  decide

theorem asciiHost_upper_empty : asciiHost.toUpperCase [] = [] := rfl

theorem asciiHost_upper_unit (c : Nat) :
    asciiHost.toUpperCase [c] = [if 97 ≤ c ∧ c ≤ 122 then c - 32 else c] := rfl

theorem asciiHost_upper_no_space : ∀ c, c ≠ SPACE → SPACE ∉ asciiHost.toUpperCase [c] := by
  intro c hc h
  rw [asciiHost_upper_unit, List.mem_singleton] at h
  unfold SPACE at *
  split_ifs at h <;> omega

theorem asciiHost_upper_no_separator : ∀ c, c ≠ DASH → c ≠ UNDERSCORE →
    DASH ∉ asciiHost.toUpperCase [c] ∧ UNDERSCORE ∉ asciiHost.toUpperCase [c] := by
  intro c h1 h2
  rw [asciiHost_upper_unit]
  unfold DASH UNDERSCORE at *
  constructor <;> intro h <;> rw [List.mem_singleton] at h <;> split_ifs at h <;> omega

theorem asciiHost_uppercasesAscii : UppercasesAscii asciiHost := by
  intro c h1 h2
  rw [asciiHost_upper_unit, if_pos ⟨h1, h2⟩]

/-- C7, amended, at the ASCII host and the slug `mary_ann_lee`. -/
theorem formatArtistName_spec_witness :
    asciiHost.toUpperCase [] = [] ∧
    (split (fun c => c == SPACE) (formatArtistName asciiHost (utf16 "mary_ann_lee"))).length
      = (split (fun c => c == UNDERSCORE) (utf16 "mary_ann_lee")).length ∧
    formatArtistName asciiHost (utf16 "alban_ovanessian") = utf16 "Alban Ovanessian" :=
  ⟨asciiHost_upper_empty,
    (formatArtistName_spec asciiHost asciiHost_upper_empty asciiHost_upper_no_space
      asciiHost_uppercasesAscii).2.2.2.1 (utf16 "mary_ann_lee") (by decide),
    (formatArtistName_spec asciiHost asciiHost_upper_empty asciiHost_upper_no_space
      asciiHost_uppercasesAscii).2.2.2.2⟩

/-- C8: `capitalizeWords` splits the string on every `-` and every `_`,
upper-cases the first code unit of each word and joins the words with one
space, so that the output holds no `-` and no `_`; `bts` gives `Bts` and
`behind-the-scenes` gives `Behind The Scenes`. The artist rule is another
one: on a string without `_`, `formatArtistName` upper-cases the first code
unit and leaves the rest, dashes included, in place. The host is one that
upper-cases the empty string to itself, no other character to a string with
`-` or `_`, and the ASCII letters to their capitals. -/
theorem capitalizeWords_spec (host : Host) (hE : host.toUpperCase [] = [])
    (hU : ∀ c, c ≠ DASH → c ≠ UNDERSCORE →
      DASH ∉ host.toUpperCase [c] ∧ UNDERSCORE ∉ host.toUpperCase [c])
    (hA : UppercasesAscii host) :
    (∀ str, capitalizeWords host str
      = join [SPACE]
          ((split (fun c => c == DASH || c == UNDERSCORE) str).map (capitalizeFirst host))) ∧
    (∀ str, DASH ∉ capitalizeWords host str ∧ UNDERSCORE ∉ capitalizeWords host str) ∧
    capitalizeWords host (utf16 "bts") = utf16 "Bts" ∧
    capitalizeWords host (utf16 "behind-the-scenes") = utf16 "Behind The Scenes" ∧
    (∀ s, UNDERSCORE ∉ s →
      formatArtistName host s = host.toUpperCase (charAt0 s) ++ slice1 s) ∧
    formatArtistName host (utf16 "behind-the-scenes") = utf16 "Behind-the-scenes" := by
  refine ⟨capitalizeWords_eq host hE, capitalizeWords_no_separator host hE hU, ?_, ?_,
    formatArtistName_of_no_underscore host, ?_⟩
  · have hs : split (fun c => c == DASH || c == UNDERSCORE) (utf16 "bts")
        = [98 :: utf16 "ts"] := by decide
    rw [capitalizeWords_eq host hE, hs]
    simp only [List.map, capitalizeFirst, join, hA 98 (by omega) (by omega)]
    decide
  · have hs : split (fun c => c == DASH || c == UNDERSCORE) (utf16 "behind-the-scenes")
        = [98 :: utf16 "ehind", 116 :: utf16 "he", 115 :: utf16 "cenes"] := by decide
    rw [capitalizeWords_eq host hE, hs]
    simp only [List.map, capitalizeFirst, join, hA 98 (by omega) (by omega),
      hA 116 (by omega) (by omega), hA 115 (by omega) (by omega)]
    decide
  · have hs : utf16 "behind-the-scenes" = 98 :: utf16 "ehind-the-scenes" := by decide
    rw [formatArtistName_of_no_underscore host _ (by decide), hs]
    simp only [charAt0, slice1, List.take, List.drop, hA 98 (by omega) (by omega)]
    decide

/-- C8, at the ASCII host and the medium `work_in-progress`. -/
theorem capitalizeWords_spec_witness :
    capitalizeWords asciiHost (utf16 "work_in-progress")
      = join [SPACE] ((split (fun c => c == DASH || c == UNDERSCORE)
          (utf16 "work_in-progress")).map (capitalizeFirst asciiHost)) ∧
    DASH ∉ capitalizeWords asciiHost (utf16 "work_in-progress") ∧
    UNDERSCORE ∉ capitalizeWords asciiHost (utf16 "work_in-progress") ∧
    capitalizeWords asciiHost (utf16 "behind-the-scenes") = utf16 "Behind The Scenes" :=
  ⟨(capitalizeWords_spec asciiHost asciiHost_upper_empty asciiHost_upper_no_separator
      asciiHost_uppercasesAscii).1 (utf16 "work_in-progress"),
    ((capitalizeWords_spec asciiHost asciiHost_upper_empty asciiHost_upper_no_separator
      asciiHost_uppercasesAscii).2.1 (utf16 "work_in-progress")).1,
    ((capitalizeWords_spec asciiHost asciiHost_upper_empty asciiHost_upper_no_separator
      asciiHost_uppercasesAscii).2.1 (utf16 "work_in-progress")).2,
    (capitalizeWords_spec asciiHost asciiHost_upper_empty asciiHost_upper_no_separator
      asciiHost_uppercasesAscii).2.2.2.1⟩

/-! ## Filter vocabularies (archive-script.js, `populateFilters`) -/

theorem mem_setAddAll (xs acc : List JSString) (v : JSString) :
    v ∈ setAddAll acc xs ↔ v ∈ acc ∨ v ∈ xs := by
  induction xs generalizing acc with
  | nil => simp [setAddAll]
  | cons x rest ih =>
    unfold setAddAll
    by_cases hx : x ∈ acc
    · rw [if_pos (by simpa using hx), ih]
      constructor
      · rintro (h | h)
        · exact Or.inl h
        · exact Or.inr (List.mem_cons_of_mem _ h)
      · rintro (h | h)
        · exact Or.inl h
        · rcases List.mem_cons.mp h with h | h
          · exact Or.inl (h ▸ hx)
          · exact Or.inr h
    · rw [if_neg (by simpa using hx), ih]
      simp only [List.mem_append, List.mem_singleton, List.mem_cons]
      tauto

theorem nodup_setAddAll (xs acc : List JSString) (h : acc.Nodup) :
    (setAddAll acc xs).Nodup := by
  induction xs generalizing acc with
  | nil => simpa [setAddAll] using h
  | cons x rest ih =>
    unfold setAddAll
    by_cases hx : x ∈ acc
    · rw [if_pos (by simpa using hx)]
      exact ih acc h
    · rw [if_neg (by simpa using hx)]
      apply ih
      rw [List.nodup_append]
      refine ⟨h, List.nodup_singleton x, ?_⟩
      intro a ha hb
      rw [List.mem_singleton] at hb
      exact hx (hb ▸ ha)

theorem arraySortDefault_perm (xs : List JSString) : (arraySortDefault xs).Perm xs :=
  List.perm_insertionSort _ xs

theorem arraySortDefault_sorted (xs : List JSString) :
    (arraySortDefault xs).Pairwise (fun a b => a ≤ b) := by
  unfold arraySortDefault
  haveI : IsTotal JSString (fun a b => ¬ b < a) :=
    ⟨fun a b => by
      simp only [not_lt]
      exact le_total a b⟩
  haveI : IsTrans JSString (fun a b => ¬ b < a) :=
    ⟨fun a b c => by
      simp only [not_lt]
      exact le_trans⟩
  have hs := List.sorted_insertionSort (fun a b : JSString => ¬ b < a) xs
  exact List.Pairwise.imp (fun {a b} h => not_lt.mp h) hs

/-- The vocabulary `[...new Set(values)].sort()` holds exactly the values, once
each, in strictly ascending order of code units. -/
theorem vocabulary_spec (values : List JSString) :
    (∀ v, v ∈ arraySortDefault (spreadSet values) ↔ v ∈ values) ∧
    (arraySortDefault (spreadSet values)).Nodup ∧
    (arraySortDefault (spreadSet values)).Pairwise (fun a b => a < b) := by
  have hperm := arraySortDefault_perm (spreadSet values)
  have hnd : (arraySortDefault (spreadSet values)).Nodup :=
    hperm.nodup_iff.mpr (nodup_setAddAll values [] List.nodup_nil)
  refine ⟨?_, hnd, ?_⟩
  · intro v
    rw [hperm.mem_iff]
    unfold spreadSet
    rw [mem_setAddAll]
    simp
  · have hs := arraySortDefault_sorted (spreadSet values)
    have hne : (arraySortDefault (spreadSet values)).Pairwise (fun a b => a ≠ b) := hnd
    exact List.Pairwise.imp₂ (fun a b hle hab => lt_of_le_of_ne hle hab) hs hne

/-- C10, as stated, fails for the year: the year filters are the buttons of
the page, which `populateFilters` leaves as they are. With the buttons `all`,
`2022`, `2023`, `2024` and a collection of one record of 2022, the year filters
hold `2023`, a year of no record. -/
theorem year_filters_not_derived :
    (populateFilters [sampleRecord] samplePage).yearFilters
      = [utf16 "all", utf16 "2022", utf16 "2023", utf16 "2024"] ∧
    ¬ (∀ v, v ∈ (populateFilters [sampleRecord] samplePage).yearFilters ↔
      ∃ r ∈ [sampleRecord], r.year = v) := by
  refine ⟨rfl, fun h => ?_⟩
  have h1 := (h (utf16 "2023")).mp (by decide)
  revert h1
  decide

/-- C10, amended: `populateFilters` derives two vocabularies, by projecting
the collection onto `medium` and onto `artistDisplay`; each holds exactly the
values of that field of some record, without duplicates, in ascending order of
code units, and is appended to the controls of the page; the year filters of
the page are left as they are. -/
theorem populateFilters_vocabularies (allMedia : List MediaRecord) (doc : Document) :
    ((∀ v, v ∈ mediaTypes allMedia ↔ ∃ r ∈ allMedia, r.medium = v) ∧
      (mediaTypes allMedia).Nodup ∧
      (mediaTypes allMedia).Pairwise (fun a b => a < b)) ∧
    ((∀ v, v ∈ artists allMedia ↔ ∃ r ∈ allMedia, r.artistDisplay = v) ∧
      (artists allMedia).Nodup ∧
      (artists allMedia).Pairwise (fun a b => a < b)) ∧
    (populateFilters allMedia doc).mediumButtons = doc.mediumButtons ++ mediaTypes allMedia ∧
    (populateFilters allMedia doc).artistOptions = doc.artistOptions ++ artists allMedia ∧
    (populateFilters allMedia doc).yearFilters = doc.yearFilters := by
  have hm := vocabulary_spec (allMedia.map (fun item => item.medium))
  have ha := vocabulary_spec (allMedia.map (fun item => item.artistDisplay))
  refine ⟨⟨?_, hm.2.1, hm.2.2⟩, ⟨?_, ha.2.1, ha.2.2⟩, rfl, rfl, rfl⟩
  · intro v
    unfold mediaTypes
    rw [hm.1 v, List.mem_map]
  · intro v
    unfold artists
    rw [ha.1 v, List.mem_map]

end Archive
